import Mathlib

/-!
# A chained hash table with a word-count driver (`src/1.c`)

Shallow embedding of the C program and theorems about it.

Conventions of the embedding.

* A bucket chain (a `NULL`-terminated list of `ht_element` cells linked through `next`) is a
  `List` of the `data` fields, head first.  A slot is a position in such a list.
* The bucket array `ht` is a list of chains; `size` and `no_elements` are the C fields.
* Undefined behaviour of the C program (an access through `NULL`, a call through a
  `NULL` function pointer, an index outside an array) is a `fault` result.
* The result of `malloc` is an explicit argument of `insert_element` and `rehash`,
  which test it; elsewhere allocations are taken to succeed.  `insert_element_block`
  takes the allocator (the bytes of the block it returns for a request) and
  `rehash_block` the content of the cells of the block; `insert_element` and `rehash`
  are the special cases of a block with room for the cell and of an array that reads
  as all `NULL`.
* Pointers are 8 bytes wide (LP64), so `ht_element` is a pointer followed by the 8
  bytes of `data_union`.
* `int` is 32 bits wide, `char` is signed, and `size_t` arithmetic does not overflow.
* `double` arithmetic is IEEE-754 binary64 with round-to-nearest-even, every operation
  rounded once, modelled on values `m * 2^e` with integer `m`, `e`.  Overflow and
  subnormals cannot occur for the magnitudes `hash_base` works with, and are not
  modelled.
* A loop that may run forever carries a bound on its number of passes; `none` is the
  result when the bound is used up.
-/

namespace HT

/-! ## Definitions -/

/-- Undefined behaviour reached by the C code. -/
inductive fault where
  | null_deref
  | null_call
  | out_of_bounds
  deriving DecidableEq

deriving instance DecidableEq for Except

/-- The constant `BUFFER_SIZE` of the source. -/
def BUFFER_SIZE : Nat := 1024

/-- The constant `MAX_RATE` of the source (defined there, used nowhere). -/
def MAX_RATE : Nat := 4

/-- Reduction of an integer to the range of a 32-bit `int`. -/
def wrap32 (x : Int) : Int := (x + 2 ^ 31) % 2 ^ 32 - 2 ^ 31

/-! ### binary64 arithmetic -/

/-- A finite binary64 value `m * 2^e`. -/
structure dbl where
  m : Int
  e : Int
  deriving DecidableEq

/-- The number of low bits of `n` to drop so that at most 53 bits remain: `0` when
`n < 2^53`, and `Nat.log2 n - 52` otherwise.  The first argument bounds the recursion. -/
def drop_bits : Nat → Nat → Nat
  | 0, _ => 0
  | fuel + 1, n => if n < 2 ^ 53 then 0 else drop_bits fuel (n / 2) + 1

/-- Rounding of a magnitude `n` to 53 significant bits, to nearest, ties to even: the
rounded significand and the number of low bits dropped.  A magnitude below `2^53` is
kept as it is. -/
def round_nat (n : Nat) : Nat × Nat :=
  if n < 2 ^ 53 then (n, 0)
  else
    let sh := drop_bits n n
    let q := n / 2 ^ sh
    let r := n % 2 ^ sh
    let half := 2 ^ (sh - 1)
    (if half < r ∨ (r = half ∧ q % 2 = 1) then q + 1 else q, sh)

/-- Rounding of the exact value `m * 2^e` to a binary64 value: round to nearest, ties
to even, on the magnitude. -/
def round53 (m e : Int) : dbl :=
  ⟨m.sign * ((round_nat m.natAbs).1 : Int), e + ((round_nat m.natAbs).2 : Int)⟩

/-- Conversion of an integer (`int` or `size_t`) to `double`. -/
def dbl.ofInt (n : Int) : dbl := round53 n 0

/-- The `double` product. -/
def dbl.mul (a b : dbl) : dbl := round53 (a.m * b.m) (a.e + b.e)

/-- The `double` difference. -/
def dbl.sub (a b : dbl) : dbl :=
  let e := min a.e b.e
  round53 (a.m * 2 ^ (a.e - e).toNat - b.m * 2 ^ (b.e - e).toNat) e

/-- The integer `floor` of a `double`. -/
def dbl.floor (a : dbl) : Int :=
  if 0 ≤ a.e then a.m * 2 ^ a.e.toNat else a.m / 2 ^ (-a.e).toNat

/-- The constant `c` of `hash_base`: the binary64 value nearest to `0.618033988`,
which is `0x1.3c6ef36c8d8bbp-1`. -/
def hash_c : dbl := ⟨5566755276118203, -53⟩

/-- The `double` that `hash_base` hands to its `(size_t)` cast, as an integer:
`tmp = k * c; floor((double)size * (tmp - floor(tmp)))`. -/
def hash_base_double (k : Int) (size : Nat) : Int :=
  let tmp := dbl.mul (dbl.ofInt k) hash_c
  let fl := dbl.ofInt (dbl.floor tmp)
  dbl.floor (dbl.mul (dbl.ofInt (size : Int)) (dbl.sub tmp fl))

/-- Function `hash_base`: the value of `hash_base_double` as a `size_t`. -/
def hash_base (k : Int) (size : Nat) : Nat := (hash_base_double k size).toNat

/-! ### The table core -/

/-- The C struct `hash_table` over elements of type `α` (the `data_union` member in use).
`dump_data` and `create_data` only print and read, and are left out.  A callback that
may be `NULL` is an `Option`. -/
structure hash_table (α : Type) where
  size : Nat
  no_elements : Nat
  ht : List (List α)
  free_data : Option (α → Unit)
  compare_data : α → α → Int
  hash_function : α → Nat → Nat
  modify_data : Option (α → α)

/-- Function `init_ht`, with the `malloc` of the bucket array succeeding: `size` empty buckets,
a live count of zero and the callbacks stored. -/
def init_ht {α : Type} (size : Nat) (free_data : Option (α → Unit))
    (compare_data : α → α → Int) (hash_function : α → Nat → Nat)
    (modify_data : Option (α → α)) : hash_table α :=
  { size := size
    no_elements := 0
    ht := List.replicate size []
    free_data := free_data
    compare_data := compare_data
    hash_function := hash_function
    modify_data := modify_data }

/-- Function `free_element`: calls `free_data(to_delete->data)`.  The result lists the elements
the destroy callback was invoked on; a `NULL` callback is a call through `NULL`. -/
def free_element {α : Type} (free_data : Option (α → Unit)) (to_delete : α) :
    Except fault (List α) :=
  match free_data with
  | none => .error .null_call
  | some _ => .ok [to_delete]

/-- The `while` loop of `add_to_ht_list`: the new cell is linked in right after the
first cell `elem` with `cmp_fn(elem->data, new_elem->data) > 0` or with no successor. -/
def add_loop {α : Type} (cmp_fn : α → α → Int) (new_elem : α) : List α → List α
  | [] => []
  | elem :: next =>
    if 0 < cmp_fn elem new_elem ∨ next.isEmpty then elem :: new_elem :: next
    else elem :: add_loop cmp_fn new_elem next

/-- Function `add_to_ht_list`: an empty chain becomes the one new cell, and the loop is then not
entered; a chain with a head goes through the loop. -/
def add_to_ht_list {α : Type} (cmp_fn : α → α → Int) (list : List α) (new_elem : α) :
    List α :=
  match list with
  | [] => [new_elem]
  | elem :: next => add_loop cmp_fn new_elem (elem :: next)

/-- The inner `while` loop of `rehash` over one old chain: each cell is linked into
bucket `hash_function(elem->data, new_size)` of the new array. -/
def rehash_chain {α : Type} (cmp : α → α → Int) (hash : α → Nat → Nat) (new_size : Nat) :
    List α → List (List α) → Except fault (List (List α))
  | [], lists => .ok lists
  | elem :: next_elem, lists =>
    let nh := hash elem new_size
    match lists[nh]? with
    | none => .error .out_of_bounds
    | some l => rehash_chain cmp hash new_size next_elem
        (lists.set nh (add_to_ht_list cmp l elem))

/-- The outer `for` loop of `rehash`, from bucket `i` on, `n` buckets to go. -/
def rehash_from {α : Type} (cmp : α → α → Int) (hash : α → Nat → Nat) (new_size : Nat)
    (ht : List (List α)) : Nat → Nat → List (List α) → Except fault (List (List α))
  | 0, _, lists => .ok lists
  | n + 1, i, lists =>
    match ht[i]? with
    | none => .error .out_of_bounds
    | some chain =>
      match rehash_chain cmp hash new_size chain lists with
      | .error f => .error f
      | .ok lists1 => rehash_from cmp hash new_size ht n (i + 1) lists1

/-- Function `rehash` when the block that `malloc` returns reads as all `NULL` (see
`rehash_block` for any block).  The flag `malloc_ok` says whether the new array was
obtained. -/
def rehash {α : Type} (t : hash_table α) (malloc_ok : Bool) : Except fault (hash_table α) :=
  let new_size := t.size * 2
  if malloc_ok then
    match rehash_from t.compare_data t.hash_function new_size t.ht t.size 0
        (List.replicate new_size []) with
    | .error f => .error f
    | .ok lists => .ok { t with size := new_size, ht := lists }
  else .ok t

/-- Function `rehash` on the block that its `malloc` returned: `none` for `NULL`, and
otherwise the chains that the cells of the block hold when `add_to_ht_list` first reads
them.  The code writes no cell of the block before `add_to_ht_list` reads it (`init_ht`
sets every cell of its array to `NULL`; `rehash` has no such loop), so the cells hold
whatever the block held before. -/
def rehash_block {α : Type} (t : hash_table α) (block : Option (List (List α))) :
    Except fault (hash_table α) :=
  let new_size := t.size * 2
  match block with
  | none => .ok t
  | some lists0 =>
    match rehash_from t.compare_data t.hash_function new_size t.ht t.size 0 lists0 with
    | .error f => .error f
    | .ok lists => .ok { t with size := new_size, ht := lists }

/-- The `while` loop of `get_element`. -/
def get_loop {α : Type} (cmp : α → α → Int) (data : α) : List α → Option α
  | [] => none
  | elem :: next => if cmp elem data = 0 then some elem else get_loop cmp data next

/-- Function `get_element`: the first cell of bucket `hash_function(*data, size)` that compares
equal to the key, or `NULL` (`none`). -/
def get_element {α : Type} (t : hash_table α) (data : α) : Except fault (Option α) :=
  let h := t.hash_function data t.size
  match t.ht[h]? with
  | none => .error .out_of_bounds
  | some elem => .ok (get_loop t.compare_data data elem)

/-- Function `insert_element` when the block that `malloc` returns has room for an
`ht_element` (see `insert_element_block` for the block the code asks for).  The flag
`malloc_ok` says whether the new cell was obtained.  Nothing but the chain of bucket `h`
is written. -/
def insert_element {α : Type} (t : hash_table α) (data : α) (malloc_ok : Bool) :
    Except fault (hash_table α) :=
  let h := t.hash_function data t.size
  if malloc_ok then
    match t.ht[h]? with
    | none => .error .out_of_bounds
    | some list => .ok { t with ht := t.ht.set h (add_to_ht_list t.compare_data list data) }
  else .ok t

/-- The bytes of a pointer, `sizeof(ht_element *)`: what `insert_element` asks `malloc`
for. -/
def SIZEOF_POINTER : Nat := 8

/-- The offset of the member `data` in `ht_element`: it comes behind the pointer `next`. -/
def OFFSET_DATA : Nat := 8

/-- The bytes of `data_union`, whose widest member is the pointer `ptr_data`. -/
def SIZEOF_DATA_UNION : Nat := 8

/-- An allocator as the C standard describes `malloc`: a request for `n` bytes is
answered with a block of which `n` bytes may be used. -/
def malloc_exact (n : Nat) : Option Nat := some n

/-- Function `insert_element` with its allocator: `malloc n` is `none` for `NULL` and
`some b` for a block of `b` usable bytes.  The code asks for `sizeof(ht_element *)`
bytes.  The store `new_elem->data = *data` writes the bytes from `OFFSET_DATA` up to
`OFFSET_DATA + SIZEOF_DATA_UNION` of the block, before the cell is linked; a store that
does not fit the block is a fault. -/
def insert_element_block {α : Type} (t : hash_table α) (data : α)
    (malloc : Nat → Option Nat) : Except fault (hash_table α) :=
  match malloc SIZEOF_POINTER with
  | none => .ok t
  | some b =>
    if OFFSET_DATA + SIZEOF_DATA_UNION ≤ b then insert_element t data true
    else .error .out_of_bounds

/-- The `while` loop of `remove_element`, entered with `elem` the cell after the head:
at the first cell comparing equal the predecessor is relinked past it.  The result is
the removed element and the chain after the head, or `none` when the loop runs out. -/
def remove_loop {α : Type} (cmp : α → α → Int) (data : α) : List α → Option (α × List α)
  | [] => none
  | elem :: next =>
    if cmp elem data = 0 then some (elem, next)
    else
      match remove_loop cmp data next with
      | none => none
      | some (x, next1) => some (x, elem :: next1)

/-- Function `remove_element`.  The head is read through unconditionally, so an empty bucket is
an access through `NULL`.  The result is the table and the elements handed to the
destroy callback. -/
def remove_element {α : Type} (t : hash_table α) (data : α) :
    Except fault (hash_table α × List α) :=
  let h := t.hash_function data t.size
  match t.ht[h]? with
  | none => .error .out_of_bounds
  | some [] => .error .null_deref
  | some (prev_elem :: elem) =>
    if t.compare_data prev_elem data = 0 then
      match free_element t.free_data prev_elem with
      | .error f => .error f
      | .ok freed => .ok ({ t with ht := t.ht.set h elem }, freed)
    else
      match remove_loop t.compare_data data elem with
      | none => .ok (t, [])
      | some (x, next1) =>
        match free_element t.free_data x with
        | .error f => .error f
        | .ok freed => .ok ({ t with ht := t.ht.set h (prev_elem :: next1) }, freed)

/-- The `while` loop of `free_table` over one chain: `free_element` on every cell, in
chain order.  The result lists the elements handed to the destroy callback. -/
def free_chain {α : Type} (free_data : Option (α → Unit)) : List α → Except fault (List α)
  | [] => .ok []
  | elem :: next =>
    match free_element free_data elem with
    | .error f => .error f
    | .ok freed =>
      match free_chain free_data next with
      | .error f => .error f
      | .ok freed1 => .ok (freed ++ freed1)

/-- The `for` loop of `free_table`, from bucket `i` on, `n` buckets to go. -/
def free_from {α : Type} (free_data : Option (α → Unit)) (ht : List (List α)) :
    Nat → Nat → Except fault (List α)
  | 0, _ => .ok []
  | n + 1, i =>
    match ht[i]? with
    | none => .error .out_of_bounds
    | some chain =>
      match free_chain free_data chain with
      | .error f => .error f
      | .ok freed =>
        match free_from free_data ht n (i + 1) with
        | .error f => .error f
        | .ok freed1 => .ok (freed ++ freed1)

/-- Function `free_table`: `free_element` on every cell of every bucket.  The result
lists the elements handed to the destroy callback.  The closing `free(p_table)` is not
part of the model. -/
def free_table {α : Type} (t : hash_table α) : Except fault (List α) :=
  free_from t.free_data t.ht t.size 0

/-! ### Element types -/

/-- Function `hash_int`: `hash_base(data.int_data, size)`. -/
def hash_int (data : Int) (size : Nat) : Nat := hash_base data size

/-- Function `cmp_int`: the difference of two `int`s, as an `int`. -/
def cmp_int (a b : Int) : Int := wrap32 (a - b)

/-- Function `hash_char`: `hash_base((int)data.char_data, size)`. -/
def hash_char (data : Int) (size : Nat) : Nat := hash_base data size

/-- Function `cmp_char`: the difference of two `char`s after promotion to `int`. -/
def cmp_char (a b : Int) : Int := a - b

/-- The C struct `DataWord`; `word` holds the bytes of the string before its `NUL`. -/
structure DataWord where
  word : List Nat
  counter : Int
  deriving DecidableEq

/-- Library function `strcmp` on byte strings: the difference of the first two bytes that differ, the
end of a string counting as `0`. -/
def strcmp : List Nat → List Nat → Int
  | [], [] => 0
  | [], b :: _ => -(b : Int)
  | a :: _, [] => (a : Int)
  | a :: as, b :: bs => if a = b then strcmp as bs else (a : Int) - (b : Int)

/-- Function `cmp_word` on two records that are not `NULL`: `strcmp` of their words. -/
def cmp_word (a b : DataWord) : Int := strcmp a.word b.word

/-- The value of a byte read as a (signed) `char`. -/
def char_val (b : Nat) : Int := if b < 128 then (b : Int) else (b : Int) - 256

/-- The loop of `hash_word`: `s += *p++` over the bytes of the word. -/
def word_sum : Int → List Nat → Int
  | s, [] => s
  | s, b :: p => word_sum (wrap32 (s + char_val b)) p

/-- Function `hash_word`: `hash_base` of the sum of the bytes of the word. -/
def hash_word (data : DataWord) (size : Nat) : Nat := hash_base (word_sum 0 data.word) size

/-- Function `modify_word`: `dw->counter++`. -/
def modify_word (data : DataWord) : DataWord :=
  { data with counter := wrap32 (data.counter + 1) }

/-- Function `create_data_word`, with its `malloc` succeeding. -/
def create_data_word (value : List Nat) : DataWord := { word := value, counter := 1 }

/-- The integer table of `main`, case 1:
`init_ht(&table, 4, dump_int, create_int, NULL, cmp_int, hash_int, NULL)`. -/
def int_table : hash_table Int := init_ht 4 none cmp_int hash_int none

/-- The character table of `main`, case 2. -/
def char_table : hash_table Int := init_ht 4 none cmp_char hash_char none

/-- The word table of `main`, case 3:
`init_ht(&table, 8, dump_word, create_data_word, free_word, cmp_word, hash_word, modify_word)`. -/
def word_table : hash_table DataWord :=
  init_ht 8 (some (fun _ => ())) cmp_word hash_word (some modify_word)

/-! ### The word pipeline -/

/-- The variables of `stream_to_ht` at the top of its loop: the unread bytes of the
input, `is_break`, the `BUFFER_SIZE` bytes of `buf`, the offset of `bufptr`, and the
table. -/
structure stream_state where
  input : List Nat
  is_break : Bool
  buf : List Nat
  bufptr : Nat
  table : hash_table DataWord

/-- The constant `EOF`. -/
def EOF : Int := -1

/-- Library function `getchar` on the unread input: the next byte, or `EOF` once the input is used up
(and `EOF` again at every later call). -/
def getchar (input : List Nat) : Int × List Nat :=
  match input with
  | [] => (EOF, [])
  | b :: rest => ((b : Int), rest)

/-- One pass through the body of the `for (;;)` loop of `stream_to_ht`, the
allocations succeeding.  The flag of the result is `true` when the loop is left by
`break`, `false` when control returns to the top (by `continue` or at the end of the
body). -/
def stream_body (s : stream_state) : Except fault (Bool × stream_state) :=
  let (c, rest) := getchar s.input
  let is_wspace : Bool := c = 32 ∨ c = 9 ∨ c = 13 ∨ c = 10 ∨ c = EOF
  if is_wspace && s.is_break then
    .ok (false, { s with input := rest })
  else if is_wspace && !s.is_break then
    if BUFFER_SIZE ≤ s.bufptr then .error .out_of_bounds
    else
      let buf1 := s.buf.set s.bufptr 0
      let wbuf := buf1.takeWhile (fun b => b != 0)
      match insert_element s.table (create_data_word wbuf) true with
      | .error f => .error f
      | .ok table1 =>
        .ok (c == EOF,
          { input := rest, is_break := true, buf := buf1, bufptr := 0, table := table1 })
  else
    if BUFFER_SIZE ≤ s.bufptr then .error .out_of_bounds
    else
      .ok (c == EOF,
        { input := rest, is_break := false, buf := s.buf.set s.bufptr (c % 256).toNat,
          bufptr := s.bufptr + 1, table := s.table })

/-- The `for (;;)` loop of `stream_to_ht`, run for at most `fuel` passes: `none` when
the loop has not been left after `fuel` passes. -/
def stream_loop : Nat → stream_state → Option (Except fault (hash_table DataWord))
  | 0, _ => none
  | fuel + 1, s =>
    match stream_body s with
    | .error f => some (.error f)
    | .ok (true, s1) => some (.ok s1.table)
    | .ok (false, s1) => stream_loop fuel s1

/-- Function `stream_to_ht` on the bytes `input` of standard input, the `calloc` of the buffer
succeeding. -/
def stream_to_ht (fuel : Nat) (p_table : hash_table DataWord) (input : List Nat) :
    Option (Except fault (hash_table DataWord)) :=
  stream_loop fuel
    { input := input, is_break := true, buf := List.replicate BUFFER_SIZE 0, bufptr := 0,
      table := p_table }

/-- The word that one pass of the loop of `stream_to_ht` hands to `insert_element`:
the pass that reads whitespace (or `EOF`) while `is_break` is clear copies the buffer up
to its first `NUL`; every other pass hands over nothing. -/
def flushed_word (s : stream_state) : List (List Nat) :=
  let (c, _) := getchar s.input
  let is_wspace : Bool := c = 32 ∨ c = 9 ∨ c = 13 ∨ c = 10 ∨ c = EOF
  if is_wspace && !s.is_break then [(s.buf.set s.bufptr 0).takeWhile (fun b => b != 0)]
  else []

/-- The start state of `stream_to_ht`. -/
def stream_start (p_table : hash_table DataWord) (input : List Nat) : stream_state :=
  { input := input, is_break := true, buf := List.replicate BUFFER_SIZE 0, bufptr := 0,
    table := p_table }

/-- Whitespace in the words of the specification: space, tab, carriage return, newline. -/
def is_space (b : Nat) : Bool := b = 32 || b = 9 || b = 13 || b = 10

/-- The tokens that remain, in the words of the specification, when `cur` is the run
read so far and `input` is still unread: `cur` goes in front of the first run of
`input`. -/
def pending_tokens (cur input : List Nat) : List (List Nat) :=
  ((input.splitOnP is_space).modifyHead (fun w => cur ++ w)).filter (fun w => !w.isEmpty)

/-! ### Sequences of calls -/

/-- A run of `insert_element` calls, in order, every cell obtained with room for an
`ht_element`. -/
def insert_all {α : Type} (t : hash_table α) : List α → Except fault (hash_table α)
  | [] => .ok t
  | x :: xs =>
    match insert_element t x true with
    | .error f => .error f
    | .ok t1 => insert_all t1 xs

/-- One call of the table interface: `insert_element`, `remove_element` or `rehash`,
with the result of its `malloc` where it has one (a block with room for the cell, an
array that reads as all `NULL`). -/
inductive call (α : Type) where
  | insert (data : α) (malloc_ok : Bool)
  | remove (data : α)
  | grow (malloc_ok : Bool)

/-- The table after one call. -/
def run_call {α : Type} (t : hash_table α) : call α → Except fault (hash_table α)
  | .insert data malloc_ok => insert_element t data malloc_ok
  | .remove data =>
    match remove_element t data with
    | .error f => .error f
    | .ok (t1, _) => .ok t1
  | .grow malloc_ok => rehash t malloc_ok

/-- The table after a sequence of calls, in order. -/
def run_calls {α : Type} (t : hash_table α) : List (call α) → Except fault (hash_table α)
  | [] => .ok t
  | c :: cs =>
    match run_call t c with
    | .error f => .error f
    | .ok t1 => run_calls t1 cs

/-- The chain is in non-decreasing comparator order: `cmp a b ≤ 0` for consecutive
slots `a`, `b`. -/
def chain_ordered {α : Type} (cmp : α → α → Int) : List α → Bool
  | a :: b :: rest => decide (cmp a b ≤ 0) && chain_ordered cmp (b :: rest)
  | _ => true

/-- The number of slots held in all bucket chains. -/
def slot_count {α : Type} (t : hash_table α) : Nat := (t.ht.map List.length).sum

/-- The element `v` is held by a slot of the bucket it hashes to. -/
def in_bucket {α : Type} (t : hash_table α) (v : α) : Prop :=
  ∃ chain, t.ht[t.hash_function v t.size]? = some chain ∧ v ∈ chain

/-- The growth policy in the words of the specification: the capacity is `C * 2^k` for
the least `k` with `N / (C * 2^k) ≤ 1`. -/
def spec_growth_capacity (C N size : Nat) : Prop :=
  ∃ k, N ≤ C * 2 ^ k ∧ (∀ j, j < k → ¬ N ≤ C * 2 ^ j) ∧ size = C * 2 ^ k

/-- The number of old cells in front of the new cell after `add_to_ht_list`: the new
cell is the head of an empty chain, and otherwise follows the cell at which the loop
stops. -/
def add_index {α : Type} (cmp_fn : α → α → Int) (new_elem : α) : List α → Nat
  | [] => 0
  | elem :: next =>
    if 0 < cmp_fn elem new_elem ∨ next.isEmpty then 1
    else add_index cmp_fn new_elem next + 1

/-- Tie-breaking by insertion order: no old cell behind the new cell compares equal to
the new element. -/
def placed_after_equals {α : Type} (cmp_fn : α → α → Int) (chain : List α) (e : α) : Prop :=
  ∀ y, y ∈ chain.drop (add_index cmp_fn e chain) → cmp_fn y e ≠ 0

/-- A three-way comparison result for `cmp_int`: negative, zero and positive exactly
for less, equal and greater. -/
def three_way (a b : Int) : Prop :=
  (cmp_int a b < 0 ↔ a < b) ∧ (cmp_int a b = 0 ↔ a = b) ∧ (0 < cmp_int a b ↔ b < a)

/-- The slots held in all bucket chains, bucket after bucket. -/
def all_slots {α : Type} (t : hash_table α) : List α := t.ht.flatten

/-- Bucket placement: every slot reachable from bucket `i` hashes to `i` under the
current capacity. -/
def placed {α : Type} (t : hash_table α) : Prop :=
  ∀ i chain, t.ht[i]? = some chain → ∀ x, x ∈ chain → t.hash_function x t.size = i

/-- The bytes of a string literal. -/
def bytes (s : String) : List Nat := s.toList.map (fun ch => ch.toNat)

/-! ## Theorems -/

/-! ### Chains -/

theorem add_loop_perm {α : Type} (cmp : α → α → Int) (n : α) :
    ∀ l : List α, l ≠ [] → (add_loop cmp n l).Perm (n :: l) := by
  intro l
  induction l with
  | nil => intro h; exact absurd rfl h
  | cons e next ih =>
    intro _
    unfold add_loop
    split
    · exact List.Perm.swap n e next
    · rename_i hc
      have hne : next ≠ [] := by
        intro h
        apply hc
        right
        simp [h]
      exact ((ih hne).cons e).trans (List.Perm.swap n e next)

theorem add_to_ht_list_perm {α : Type} (cmp : α → α → Int) (l : List α) (n : α) :
    (add_to_ht_list cmp l n).Perm (n :: l) := by
  cases l with
  | nil => exact List.Perm.refl _
  | cons e next => exact add_loop_perm cmp n (e :: next) (by simp)

theorem mem_add_to_ht_list {α : Type} (cmp : α → α → Int) (l : List α) (n x : α) :
    x ∈ add_to_ht_list cmp l n ↔ x = n ∨ x ∈ l := by
  rw [(add_to_ht_list_perm cmp l n).mem_iff]
  simp

theorem length_add_to_ht_list {α : Type} (cmp : α → α → Int) (l : List α) (n : α) :
    (add_to_ht_list cmp l n).length = l.length + 1 := by
  rw [(add_to_ht_list_perm cmp l n).length_eq]
  simp

theorem get_loop_of_mem {α : Type} (cmp : α → α → Int) (v : α) :
    ∀ l : List α, (∃ x, x ∈ l ∧ cmp x v = 0) →
      ∃ e, get_loop cmp v l = some e ∧ e ∈ l ∧ cmp e v = 0 := by
  intro l
  induction l with
  | nil => rintro ⟨x, hx, _⟩; simp at hx
  | cons a rest ih =>
    rintro ⟨x, hx, hc⟩
    unfold get_loop
    by_cases ha : cmp a v = 0
    · exact ⟨a, by simp [ha], by simp, ha⟩
    · have hx2 : x ∈ rest := by
        rcases List.mem_cons.mp hx with h | h
        · exact absurd (h ▸ hc) ha
        · exact h
      obtain ⟨e, he, hm, hz⟩ := ih ⟨x, hx2, hc⟩
      exact ⟨e, by simp [ha, he], List.mem_cons_of_mem _ hm, hz⟩

/-! ### `insert_element` -/

theorem insert_element_ok {α : Type} (t : hash_table α) (x : α)
    (hlen : t.ht.length = t.size) (hx : t.hash_function x t.size < t.size) :
    ∃ list, t.ht[t.hash_function x t.size]? = some list ∧
      insert_element t x true = .ok { t with
        ht := t.ht.set (t.hash_function x t.size) (add_to_ht_list t.compare_data list x) } := by
  have hlt : t.hash_function x t.size < t.ht.length := by omega
  refine ⟨t.ht[t.hash_function x t.size], List.getElem?_eq_getElem hlt, ?_⟩
  simp [insert_element, List.getElem?_eq_getElem hlt]

theorem insert_element_in_bucket {α : Type} (t : hash_table α) (x : α)
    (hlen : t.ht.length = t.size) (hx : t.hash_function x t.size < t.size) :
    ∃ t1, insert_element t x true = .ok t1 ∧ t1.size = t.size ∧
      t1.ht.length = t.ht.length ∧ t1.compare_data = t.compare_data ∧
      t1.hash_function = t.hash_function ∧ t1.no_elements = t.no_elements ∧
      in_bucket t1 x ∧ ∀ v, in_bucket t v → in_bucket t1 v := by
  obtain ⟨list, hl, hins⟩ := insert_element_ok t x hlen hx
  have hlt : t.hash_function x t.size < t.ht.length := by omega
  refine ⟨_, hins, rfl, by simp, rfl, rfl, rfl, ?_, ?_⟩
  · refine ⟨add_to_ht_list t.compare_data list x, ?_, ?_⟩
    · simp [List.getElem?_set, hlt]
    · exact (mem_add_to_ht_list _ _ _ _).mpr (Or.inl rfl)
  · rintro v ⟨chain, hc, hv⟩
    by_cases hi : t.hash_function x t.size = t.hash_function v t.size
    · refine ⟨add_to_ht_list t.compare_data list x, ?_, ?_⟩
      · show (t.ht.set _ _)[t.hash_function v t.size]? = _
        rw [← hi]
        simp [List.getElem?_set, hlt]
      · rw [← hi, hl] at hc
        cases hc
        exact (mem_add_to_ht_list _ _ _ _).mpr (Or.inr hv)
    · refine ⟨chain, ?_, hv⟩
      show (t.ht.set _ _)[t.hash_function v t.size]? = _
      rw [List.getElem?_set_ne hi]
      exact hc

theorem insert_all_in_bucket {α : Type} (xs : List α) :
    ∀ t : hash_table α, t.ht.length = t.size →
      (∀ x, x ∈ xs → t.hash_function x t.size < t.size) →
      ∃ t1, insert_all t xs = .ok t1 ∧ t1.size = t.size ∧
        t1.ht.length = t.ht.length ∧ t1.compare_data = t.compare_data ∧
        t1.hash_function = t.hash_function ∧ t1.no_elements = t.no_elements ∧
        ∀ v, (v ∈ xs ∨ in_bucket t v) → in_bucket t1 v := by
  induction xs with
  | nil =>
    intro t _ _
    exact ⟨t, rfl, rfl, rfl, rfl, rfl, rfl, fun v h => h.elim (fun h => by simp at h) id⟩
  | cons x xs ih =>
    intro t hlen hh
    obtain ⟨t1, h1, hs1, hl1, hc1, hf1, hn1, hx1, hk1⟩ :=
      insert_element_in_bucket t x hlen (hh x (by simp))
    have hlen1 : t1.ht.length = t1.size := by omega
    have hh1 : ∀ y, y ∈ xs → t1.hash_function y t1.size < t1.size := by
      intro y hy
      rw [hf1, hs1]
      exact hh y (List.mem_cons_of_mem _ hy)
    obtain ⟨t2, h2, hs2, hl2, hc2, hf2, hn2, hk2⟩ := ih t1 hlen1 hh1
    refine ⟨t2, ?_, by omega, by omega, hc2.trans hc1, hf2.trans hf1, by omega, ?_⟩
    · simp [insert_all, h1, h2]
    · intro v hv
      apply hk2
      rcases hv with hv | hv
      · rcases List.mem_cons.mp hv with h | h
        · right; rw [h]; exact hx1
        · left; exact h
      · right; exact hk1 v hv

/-- When every cell is obtained with room for an `ht_element`: on a fresh table, after
any run of `insert_element` calls (the comparator being reflexive, the hash staying
below the capacity), `get_element` on every inserted value, the last one included,
returns an element of the bucket of that value that compares equal to it. -/
theorem insert_then_get_finds {α : Type} (size : Nat) (free_data : Option (α → Unit))
    (compare_data : α → α → Int) (hash_function : α → Nat → Nat)
    (modify_data : Option (α → α)) (xs : List α) (v : α)
    (hrefl : ∀ x, compare_data x x = 0)
    (hhash : ∀ x, x ∈ xs → hash_function x size < size)
    (hv : v ∈ xs) :
    ∃ t e chain, insert_all (init_ht size free_data compare_data hash_function modify_data) xs
        = .ok t ∧
      t.ht[hash_function v size]? = some chain ∧ v ∈ chain ∧ e ∈ chain ∧
      get_element t v = .ok (some e) ∧ compare_data e v = 0 := by
  obtain ⟨t1, h1, hs, _, hc, hf, _, hk⟩ :=
    insert_all_in_bucket xs (init_ht size free_data compare_data hash_function modify_data)
      (by simp [init_ht]) hhash
  obtain ⟨chain, hch, hmem⟩ := hk v (Or.inl hv)
  obtain ⟨e, he, hin, hz⟩ := get_loop_of_mem t1.compare_data v chain ⟨v, hmem, by
    rw [hc]; exact hrefl v⟩
  refine ⟨t1, e, chain, h1, ?_, hmem, hin, ?_, ?_⟩
  · rw [hf, hs] at hch
    exact hch
  · simp [get_element, hch, he]
  · rw [hc] at hz
    exact hz

/-- Example: the values 13, 5, 21 inserted into the integer table of `main`, and the
lookup of 5. -/
theorem insert_then_get_finds_example :
    ∃ t e chain, insert_all (init_ht 4 none cmp_int hash_int none) [13, 5, 21] = .ok t ∧
      t.ht[hash_int 5 4]? = some chain ∧ 5 ∈ chain ∧ e ∈ chain ∧
      get_element t 5 = .ok (some e) ∧ cmp_int e 5 = 0 :=
  insert_then_get_finds 4 none cmp_int hash_int none [13, 5, 21] 5
    (fun x => by simp [cmp_int, wrap32])
    (by decide)
    (by decide)

/-- C1, at the failing input: the first `insert_element` on each fresh table of `main`
(the integer 5, the character `a`, the word `"the"`).  The cell is a block of
`sizeof(ht_element *)` = 8 bytes, and `new_elem->data = *data` stores at its bytes 8 to
16: the store is outside the block, so no insert that a lookup could follow is
defined. -/
theorem insert_stores_outside_its_block :
    SIZEOF_POINTER < OFFSET_DATA + SIZEOF_DATA_UNION ∧
      insert_element_block int_table 5 malloc_exact = .error .out_of_bounds ∧
      insert_element_block char_table 97 malloc_exact = .error .out_of_bounds ∧
      insert_element_block word_table (create_data_word (bytes "the")) malloc_exact
        = .error .out_of_bounds :=
  ⟨by decide, rfl, rfl, rfl⟩

/-! ### Chain order -/

/-- C2, at the failing input: inserting 13 and then 5 into the integer table of `main`
puts both in bucket 0, in the order 13, 5, and `cmp_int 13 5 > 0`, so the chain is not
in non-decreasing comparator order. -/
theorem chain_order_broken :
    (insert_all int_table [13, 5]).map (fun t => t.ht) = .ok [[13, 5], [], [], []] ∧
      chain_ordered cmp_int [13, 5] = false := by
  constructor
  · decide
  · decide

/-! ### Capacity -/

theorem insert_element_fields {α : Type} (t t1 : hash_table α) (x : α) (b : Bool)
    (h : insert_element t x b = .ok t1) :
    t1.size = t.size ∧ t1.no_elements = t.no_elements := by
  unfold insert_element at h
  cases b with
  | false =>
    simp at h
    subst h
    exact ⟨rfl, rfl⟩
  | true =>
    simp only [if_true] at h
    split at h
    · cases h
    · cases h
      exact ⟨rfl, rfl⟩

theorem remove_element_fields {α : Type} (t t1 : hash_table α) (x : α) (freed : List α)
    (h : remove_element t x = .ok (t1, freed)) :
    t1.size = t.size ∧ t1.no_elements = t.no_elements := by
  unfold remove_element at h
  dsimp only at h
  split at h
  · cases h
  · cases h
  · split at h
    · split at h
      · cases h
      · cases h
        exact ⟨rfl, rfl⟩
    · split at h
      · cases h
        exact ⟨rfl, rfl⟩
      · split at h
        · cases h
        · cases h
          exact ⟨rfl, rfl⟩

/-- C3, at the failing input: five inserts, and likewise seventeen inserts, into the
integer table of `main` (capacity 4) leave the capacity at 4, while the least `k` with
`5 ≤ 4 * 2^k` is 1 and the least `k` with `17 ≤ 4 * 2^k` is 3: `insert_element` has no
load test and no call of `rehash`. -/
theorem growth_policy_counterexample :
    (∃ t, insert_all int_table [1, 2, 3, 4, 5] = .ok t ∧ t.size = 4 ∧
      ¬ spec_growth_capacity 4 5 t.size) ∧
    ∃ t, insert_all int_table [1, 2, 3, 4, 5, 6, 7, 8, 9, 10, 11, 12, 13, 14, 15, 16, 17]
        = .ok t ∧ t.size = 4 ∧ ¬ spec_growth_capacity 4 17 t.size := by
  constructor
  · obtain ⟨t, ht, hsz⟩ : ∃ t, insert_all int_table [1, 2, 3, 4, 5] = .ok t ∧ t.size = 4 :=
      ⟨_, rfl, rfl⟩
    refine ⟨t, ht, hsz, ?_⟩
    rw [hsz]
    rintro ⟨k, hk, _, hs⟩
    have hk0 : 2 ^ k = 1 := by omega
    rw [hk0] at hk
    omega
  · obtain ⟨t, ht, hsz⟩ : ∃ t, insert_all int_table
        [1, 2, 3, 4, 5, 6, 7, 8, 9, 10, 11, 12, 13, 14, 15, 16, 17] = .ok t ∧ t.size = 4 :=
      ⟨_, rfl, rfl⟩
    refine ⟨t, ht, hsz, ?_⟩
    rw [hsz]
    rintro ⟨k, hk, _, hs⟩
    have hk0 : 2 ^ k = 1 := by omega
    rw [hk0] at hk
    omega

/-! ### The word pipeline -/

/-- C4, at the failing input: on `"the cat the dog the"` the word table of `main` ends
with five records, one for each token read and each with counter 1; `"the"` is held
three times, the live count is 0, and looking up `"the"` gives a record with counter 1. -/
theorem word_count_example :
    ∃ t, stream_to_ht 100 word_table (bytes "the cat the dog the") = some (.ok t) ∧
      t.ht = [[⟨bytes "dog", 1⟩], [], [],
        [⟨bytes "the", 1⟩, ⟨bytes "the", 1⟩, ⟨bytes "the", 1⟩], [], [],
        [⟨bytes "cat", 1⟩], []] ∧
      slot_count t = 5 ∧ t.no_elements = 0 ∧
      get_element t (create_data_word (bytes "the")) = .ok (some ⟨bytes "the", 1⟩) :=
  ⟨_, rfl, by decide, by decide, rfl, by decide⟩

theorem stream_loop_at_eof (fuel : Nat) :
    ∀ s : stream_state, s.input = [] → s.is_break = true → stream_loop fuel s = none := by
  induction fuel with
  | zero => intro s _ _; rfl
  | succ n ih =>
    intro s hi hb
    have hbody : stream_body s = .ok (false, { s with input := [] }) := by
      simp [stream_body, getchar, hi, hb, EOF]
    unfold stream_loop
    rw [hbody]
    exact ih _ rfl hb

/-- C5, at the failing inputs: on the empty input, and on the input `"a "` that ends
in whitespace, the loop of `stream_to_ht` is not left, whatever the number of passes.
Once `getchar` gives `EOF` with `is_break` set the pass ends at `continue`, and the test
`c == EOF` at the end of the body is never reached. -/
theorem stream_never_stops_at_eof_after_break (fuel : Nat) (p_table : hash_table DataWord) :
    stream_to_ht fuel p_table [] = none ∧
      stream_to_ht fuel word_table (bytes "a ") = none := by
  refine ⟨stream_loop_at_eof fuel _ rfl rfl, ?_⟩
  match fuel with
  | 0 => rfl
  | 1 => rfl
  | n + 2 =>
    have h : stream_to_ht (n + 2) word_table (bytes "a ")
        = stream_loop n ⟨[], true, ((List.replicate BUFFER_SIZE 0).set 0 97).set 1 0, 0,
            { word_table with ht := [[], [], [], [], [], [], [], [⟨[97], 1⟩]] }⟩ := by
      rfl
    rw [h]
    exact stream_loop_at_eof n _ rfl rfl

/-! ### `remove_element` -/

/-- C6, at the failing input: `remove_element` for the key 5 on the fresh integer table
of `main`, whose bucket 0 is empty, reads `prev_elem->next` through the `NULL` head. -/
theorem remove_from_empty_bucket_faults :
    int_table.ht[hash_int 5 int_table.size]? = some [] ∧
      remove_element int_table 5 = .error .null_deref :=
  ⟨by decide, rfl⟩

theorem remove_loop_none {α : Type} (cmp : α → α → Int) (data : α) :
    ∀ l : List α, (∀ e, e ∈ l → cmp e data ≠ 0) → remove_loop cmp data l = none := by
  intro l
  induction l with
  | nil => intro _; rfl
  | cons a rest ih =>
    intro h
    have ha : cmp a data ≠ 0 := h a (by simp)
    have hr := ih (fun e he => h e (List.mem_cons_of_mem _ he))
    simp [remove_loop, ha, hr]

theorem remove_loop_some {α : Type} (cmp : α → α → Int) (data : α) :
    ∀ l : List α, (∃ e, e ∈ l ∧ cmp e data = 0) →
      ∃ x, get_loop cmp data l = some x ∧
        remove_loop cmp data l = some (x, l.eraseP (fun e => decide (cmp e data = 0))) := by
  intro l
  induction l with
  | nil => rintro ⟨e, he, _⟩; simp at he
  | cons a rest ih =>
    rintro ⟨e, he, hz⟩
    by_cases ha : cmp a data = 0
    · exact ⟨a, by simp [get_loop, ha], by simp [remove_loop, ha]⟩
    · have he2 : e ∈ rest := by
        rcases List.mem_cons.mp he with h | h
        · exact absurd (h ▸ hz) ha
        · exact h
      obtain ⟨x, hg, hr⟩ := ih ⟨e, he2, hz⟩
      exact ⟨x, by simp [get_loop, ha, hg], by simp [remove_loop, ha, hr]⟩

/-- C7: when the bucket of the key is not empty and holds no element comparing equal
to the key, `remove_element` returns with every chain, the capacity and the live count
as they were, hands nothing to the destroy callback, and every `get_element` gives the
result it gave before. -/
theorem remove_absent_unchanged {α : Type} (t : hash_table α) (data prev_elem : α)
    (elem : List α)
    (hb : t.ht[t.hash_function data t.size]? = some (prev_elem :: elem))
    (hno : ∀ e, e ∈ prev_elem :: elem → t.compare_data e data ≠ 0) :
    ∃ t1, remove_element t data = .ok (t1, []) ∧ t1.ht = t.ht ∧ t1.size = t.size ∧
      t1.no_elements = t.no_elements ∧ ∀ key, get_element t1 key = get_element t key := by
  have hp : t.compare_data prev_elem data ≠ 0 := hno prev_elem (by simp)
  have hr := remove_loop_none t.compare_data data elem
    (fun e he => hno e (List.mem_cons_of_mem _ he))
  refine ⟨t, ?_, rfl, rfl, rfl, fun _ => rfl⟩
  simp [remove_element, hb, hp, hr]

/-- Witness of C7: the integer table holding 13 in bucket 0, and the key 5, which
hashes to bucket 0 as well. -/
theorem remove_absent_unchanged_witness :
    ∃ t1, remove_element { int_table with ht := [[13], [], [], []] } 5 = .ok (t1, []) ∧
      t1.ht = [[13], [], [], []] ∧ t1.size = 4 ∧ t1.no_elements = 0 ∧
      ∀ key, get_element t1 key
        = get_element { int_table with ht := [[13], [], [], []] } key :=
  remove_absent_unchanged { int_table with ht := [[13], [], [], []] } 5 13 []
    (by decide) (by decide)

/-- On a table that has a destroy callback: when the bucket of the key holds an element
comparing equal to the key, `remove_element` replaces the chain of that bucket by the
chain with its first matching slot erased, the other slots keeping their order, leaves
the other buckets and the capacity as they were, and hands exactly the removed element,
the one `get_element` finds, to the destroy callback, once. -/
theorem remove_present_erases_first {α : Type} (t : hash_table α) (data : α)
    (chain : List α) (f : α → Unit)
    (hb : t.ht[t.hash_function data t.size]? = some chain)
    (hm : ∃ e, e ∈ chain ∧ t.compare_data e data = 0)
    (hf : t.free_data = some f) :
    ∃ x t1, remove_element t data = .ok (t1, [x]) ∧
      get_loop t.compare_data data chain = some x ∧
      t1.ht = t.ht.set (t.hash_function data t.size)
        (chain.eraseP (fun e => decide (t.compare_data e data = 0))) ∧
      (∀ i, i ≠ t.hash_function data t.size → t1.ht[i]? = t.ht[i]?) ∧
      t1.size = t.size := by
  cases chain with
  | nil =>
    obtain ⟨e, he, _⟩ := hm
    simp at he
  | cons prev_elem elem =>
    by_cases hp : t.compare_data prev_elem data = 0
    · refine ⟨prev_elem, { t with ht := t.ht.set (t.hash_function data t.size) elem },
        ?_, ?_, ?_, ?_, rfl⟩
      · simp [remove_element, hb, hp, hf, free_element]
      · simp [get_loop, hp]
      · simp [hp]
      · intro i hi
        exact List.getElem?_set_ne (Ne.symm hi)
    · have hm2 : ∃ e, e ∈ elem ∧ t.compare_data e data = 0 := by
        obtain ⟨e, he, hz⟩ := hm
        rcases List.mem_cons.mp he with h | h
        · exact absurd (h ▸ hz) hp
        · exact ⟨e, h, hz⟩
      obtain ⟨x, hg, hr⟩ := remove_loop_some t.compare_data data elem hm2
      refine ⟨x, { t with ht := (t.ht.set (t.hash_function data t.size)
          (prev_elem :: elem.eraseP (fun e => decide (t.compare_data e data = 0)))) },
        ?_, ?_, ?_, ?_, rfl⟩
      · simp [remove_element, hb, hp, hf, free_element, hr]
      · simp [get_loop, hp, hg]
      · simp [hp]
      · intro i hi
        exact List.getElem?_set_ne (Ne.symm hi)

/-- Example: the word table of `main` holding `"dog"` and then `"god"` in one bucket,
and the key `"god"`. -/
theorem remove_present_erases_first_example :
    ∃ x t1, remove_element
        { word_table with ht := [[⟨bytes "dog", 1⟩, ⟨bytes "god", 1⟩], [], [], [], [], [], [], []] }
        ⟨bytes "god", 1⟩ = .ok (t1, [x]) ∧
      get_loop cmp_word ⟨bytes "god", 1⟩ [⟨bytes "dog", 1⟩, ⟨bytes "god", 1⟩] = some x ∧
      t1.ht = ([[⟨bytes "dog", 1⟩, ⟨bytes "god", 1⟩], [], [], [], [], [], [], []] :
          List (List DataWord)).set (hash_word ⟨bytes "god", 1⟩ 8)
        (([⟨bytes "dog", 1⟩, ⟨bytes "god", 1⟩] : List DataWord).eraseP
          (fun e => decide (cmp_word e ⟨bytes "god", 1⟩ = 0))) ∧
      (∀ i, i ≠ hash_word ⟨bytes "god", 1⟩ 8 → t1.ht[i]?
        = ([[⟨bytes "dog", 1⟩, ⟨bytes "god", 1⟩], [], [], [], [], [], [], []] :
          List (List DataWord))[i]?) ∧
      t1.size = 8 :=
  remove_present_erases_first
    { word_table with ht := [[⟨bytes "dog", 1⟩, ⟨bytes "god", 1⟩], [], [], [], [], [], [], []] }
    ⟨bytes "god", 1⟩ [⟨bytes "dog", 1⟩, ⟨bytes "god", 1⟩] (fun _ => ())
    (by decide) ⟨⟨bytes "god", 1⟩, by decide, by decide⟩ rfl

/-- C8, at the failing input: the integer table of `main` (`free_data = NULL`) holds 5
and 13 in bucket 0.  Removing 13, a match behind the head, and removing 5, the match at
the head, both end in the call of `free_data` through `NULL`. -/
theorem remove_present_calls_null :
    ∃ t, insert_all int_table [5, 13] = .ok t ∧ t.ht = [[5, 13], [], [], []] ∧
      t.free_data.isNone = true ∧
      remove_element t 13 = .error .null_call ∧ remove_element t 5 = .error .null_call :=
  ⟨_, rfl, by decide, rfl, rfl, rfl⟩

/-! ### The live count -/

/-- C9, at the failing input: after one `insert_element` on the fresh integer table of
`main` one slot is held, and `no_elements` is still 0. -/
theorem live_count_not_tracked :
    ∃ t, insert_all int_table [5] = .ok t ∧ slot_count t = 1 ∧ t.no_elements = 0 :=
  ⟨_, rfl, by decide, rfl⟩

/-! ### The hash functions -/

theorem drop_bits_spec (fuel : Nat) : ∀ n, n < 2 ^ 53 * 2 ^ fuel → 2 ^ 53 ≤ n →
    1 ≤ drop_bits fuel n ∧ 2 ^ 52 * 2 ^ drop_bits fuel n ≤ n ∧
      n < 2 ^ 53 * 2 ^ drop_bits fuel n := by
  induction fuel with
  | zero =>
    intro n h1 h2
    rw [Nat.pow_zero] at h1
    omega
  | succ f ih =>
    intro n h1 h2
    have hn : ¬ n < 2 ^ 53 := by omega
    have hstep : drop_bits (f + 1) n = drop_bits f (n / 2) + 1 := by
      rw [drop_bits, if_neg hn]
    rw [hstep]
    by_cases hs : n / 2 < 2 ^ 53
    · have h0 : drop_bits f (n / 2) = 0 := by
        cases f with
        | zero => rfl
        | succ g => rw [drop_bits, if_pos hs]
      rw [h0]
      refine ⟨by omega, ?_, ?_⟩
      · have : (2 : Nat) ^ 52 * 2 ^ (0 + 1) = 2 ^ 53 := by norm_num
        omega
      · have : (2 : Nat) ^ 53 * 2 ^ (0 + 1) = 2 * 2 ^ 53 := by norm_num
        omega
    · have h3 : n / 2 < 2 ^ 53 * 2 ^ f := by
        rw [Nat.pow_succ] at h1
        omega
      obtain ⟨a, b, c⟩ := ih (n / 2) h3 (by omega)
      rw [Nat.pow_succ]
      refine ⟨by omega, by omega, by omega⟩

theorem round_nat_small (n : Nat) (h : n < 2 ^ 53) : round_nat n = (n, 0) := by
  rw [round_nat, if_pos h]

theorem round_nat_big (n : Nat) (h : 2 ^ 53 ≤ n) :
    1 ≤ (round_nat n).2 ∧ 2 ^ 52 * 2 ^ (round_nat n).2 ≤ n ∧
      n < 2 ^ 53 * 2 ^ (round_nat n).2 ∧
      ((round_nat n).1 = n / 2 ^ (round_nat n).2 ∨
        ((round_nat n).1 = n / 2 ^ (round_nat n).2 + 1 ∧
          2 ^ (round_nat n).2 ≤ 2 * (n % 2 ^ (round_nat n).2))) := by
  have hn : ¬ n < 2 ^ 53 := by omega
  have hfuel : n < 2 ^ 53 * 2 ^ n := by
    have h1 : n < 2 ^ n := Nat.lt_two_pow n
    have h2 : 2 ^ n ≤ 2 ^ 53 * 2 ^ n := Nat.le_mul_of_pos_left _ (by norm_num)
    omega
  obtain ⟨a, b, c⟩ := drop_bits_spec n n hfuel h
  have hsnd : (round_nat n).2 = drop_bits n n := by
    rw [round_nat, if_neg hn]
  have hfst : (round_nat n).1 =
      if 2 ^ (drop_bits n n - 1) < n % 2 ^ drop_bits n n ∨
          (n % 2 ^ drop_bits n n = 2 ^ (drop_bits n n - 1) ∧
            n / 2 ^ drop_bits n n % 2 = 1)
      then n / 2 ^ drop_bits n n + 1 else n / 2 ^ drop_bits n n := by
    rw [round_nat, if_neg hn]
  rw [hsnd]
  refine ⟨a, b, c, ?_⟩
  rw [hfst]
  have hp : 2 ^ drop_bits n n = 2 ^ (drop_bits n n - 1) * 2 := by
    rw [← Nat.pow_succ]
    congr 1
    omega
  split
  · rename_i hc
    right
    refine ⟨rfl, ?_⟩
    rcases hc with hc | ⟨hc, _⟩
    · omega
    · omega
  · left
    rfl

theorem round_nat_le (n : Nat) : (round_nat n).1 ≤ 2 ^ 53 := by
  by_cases h : n < 2 ^ 53
  · rw [round_nat_small n h]
    exact Nat.le_of_lt h
  · obtain ⟨_, _, c, d⟩ := round_nat_big n (by omega)
    have hS : 0 < 2 ^ (round_nat n).2 := Nat.two_pow_pos _
    have hq : n / 2 ^ (round_nat n).2 < 2 ^ 53 := (Nat.div_lt_iff_lt_mul hS).mpr c
    rcases d with d | ⟨d, _⟩
    · omega
    · omega

theorem round_nat_near (n : Nat) (h : 2 ^ 53 ≤ n) :
    2 * ((round_nat n).1 * 2 ^ (round_nat n).2) ≤ 2 * n + 2 ^ (round_nat n).2 := by
  obtain ⟨_, _, _, d⟩ := round_nat_big n h
  have hdm := Nat.div_add_mod n (2 ^ (round_nat n).2)
  rcases d with d | ⟨d, e⟩
  · rw [d]
    have := Nat.div_mul_le_self n (2 ^ (round_nat n).2)
    omega
  · rw [d, Nat.add_mul, Nat.one_mul]
    have hc : n / 2 ^ (round_nat n).2 * 2 ^ (round_nat n).2
        = 2 ^ (round_nat n).2 * (n / 2 ^ (round_nat n).2) := Nat.mul_comm _ _
    omega

/-- The product with a fraction below one stays strictly below the factor that was
rounded down or kept. -/
theorem prod_lt_of_kept (ms r T mp S : Nat) (hr : r < T) (hms : 1 ≤ ms)
    (hT : T ≤ 2 ^ 53)
    (hcase : (S = 1 ∧ mp = ms * r) ∨
      (2 ^ 52 * S ≤ ms * r ∧ 2 * (mp * S) ≤ 2 * (ms * r) + S)) :
    mp * S < ms * T := by
  have h1 : ms * (r + 1) ≤ ms * T := Nat.mul_le_mul_left ms hr
  rw [Nat.mul_succ] at h1
  rcases hcase with ⟨hS, hmp⟩ | ⟨hlo, hnear⟩
  · rw [hS, hmp]
    omega
  · have h2 : ms * T ≤ ms * 2 ^ 53 := Nat.mul_le_mul_left ms hT
    have h3 : S < 2 * ms := by omega
    omega

/-- The product with a fraction below one stays at or below the predecessor of a factor
that was rounded up. -/
theorem prod_le_of_rounded_up (m1 r t mp sh : Nat) (hr : r < 2 ^ t) (ht : t ≤ 53)
    (hm1 : 2 ^ 52 ≤ m1) (hm2 : m1 + 1 ≤ 2 ^ 53)
    (hcase : (sh = 0 ∧ mp = (m1 + 1) * r ∧ (m1 + 1) * r < 2 ^ 53) ∨
      (2 ^ 52 * 2 ^ sh ≤ (m1 + 1) * r ∧ mp ≤ 2 ^ 53 ∧
        (mp = (m1 + 1) * r / 2 ^ sh ∨
          (mp = (m1 + 1) * r / 2 ^ sh + 1 ∧ 2 ^ sh ≤ 2 * ((m1 + 1) * r % 2 ^ sh))))) :
    mp * 2 ^ sh ≤ m1 * 2 ^ t := by
  have hTle : 2 ^ t ≤ 2 ^ 53 := Nat.pow_le_pow_right (by norm_num) ht
  have hTpos : 0 < 2 ^ t := Nat.two_pow_pos _
  have h1 : (m1 + 1) * (r + 1) ≤ (m1 + 1) * 2 ^ t := Nat.mul_le_mul_left _ hr
  rw [Nat.mul_succ] at h1
  have h2 : (m1 + 1) * 2 ^ t = m1 * 2 ^ t + 2 ^ t := by rw [Nat.add_mul, Nat.one_mul]
  have h3 : 2 ^ 52 * 2 ^ t ≤ m1 * 2 ^ t := Nat.mul_le_mul_right _ hm1
  rcases hcase with ⟨hsh, hmp, hN⟩ | ⟨hlo, hmp53, hmp⟩
  · rw [hsh, hmp, Nat.pow_zero, Nat.mul_one]
    by_cases ht0 : t = 0
    · subst ht0
      rw [Nat.pow_zero] at hr
      have hr0 : r = 0 := by omega
      rw [hr0]
      simp
    · have hu : 2 ^ 1 ≤ 2 ^ t := Nat.pow_le_pow_right (by norm_num) (by omega)
      omega
  · have hSpos : 0 < 2 ^ sh := Nat.two_pow_pos _
    have h4 : (m1 + 1) * 2 ^ t ≤ 2 ^ 53 * 2 ^ t := Nat.mul_le_mul_right _ hm2
    have h5 : 2 ^ sh < 2 ^ (t + 1) := by
      rw [Nat.pow_succ]
      omega
    have h6 : sh < t + 1 := (Nat.pow_lt_pow_iff_right (by norm_num)).mp h5
    by_cases hst : sh = t
    · subst hst
      have hq : (m1 + 1) * r / 2 ^ sh < m1 + 1 :=
        (Nat.div_lt_iff_lt_mul hSpos).mpr (by omega)
      have hdm := Nat.div_add_mod ((m1 + 1) * r) (2 ^ sh)
      rcases hmp with hmp | ⟨hmp, hhalf⟩
      · rw [hmp]
        exact Nat.mul_le_mul_right _ (by omega)
      · rw [hmp]
        apply Nat.mul_le_mul_right
        by_contra hcon
        have hqe : (m1 + 1) * r / 2 ^ sh = m1 := by omega
        rw [hqe] at hdm
        have hc : 2 ^ sh * m1 = m1 * 2 ^ sh := Nat.mul_comm _ _
        omega
    · have hlt : sh + 1 ≤ t := by omega
      have h7 : 2 ^ (sh + 1) ≤ 2 ^ t := Nat.pow_le_pow_right (by norm_num) hlt
      rw [Nat.pow_succ] at h7
      have h8 : mp * 2 ^ sh ≤ 2 ^ 53 * 2 ^ sh := Nat.mul_le_mul_right _ hmp53
      omega

theorem round_nat_size_cases (size : Nat) (hs : 0 < size) :
    ((round_nat size).1 * 2 ^ (round_nat size).2 ≤ size ∧ 1 ≤ (round_nat size).1) ∨
      ∃ m1, (round_nat size).1 = m1 + 1 ∧ 2 ^ 52 ≤ m1 ∧ m1 * 2 ^ (round_nat size).2 < size := by
  by_cases h : size < 2 ^ 53
  · left
    rw [round_nat_small size h]
    simp
    omega
  · obtain ⟨_, b, _, d⟩ := round_nat_big size (by omega)
    have hS : 0 < 2 ^ (round_nat size).2 := Nat.two_pow_pos _
    have hq : 2 ^ 52 ≤ size / 2 ^ (round_nat size).2 := (Nat.le_div_iff_mul_le hS).mpr b
    rcases d with d | ⟨d, e⟩
    · left
      rw [d]
      exact ⟨Nat.div_mul_le_self _ _, by omega⟩
    · right
      refine ⟨size / 2 ^ (round_nat size).2, d, hq, ?_⟩
      have hdm := Nat.div_add_mod size (2 ^ (round_nat size).2)
      have hc : size / 2 ^ (round_nat size).2 * 2 ^ (round_nat size).2
          = 2 ^ (round_nat size).2 * (size / 2 ^ (round_nat size).2) := Nat.mul_comm _ _
      omega

theorem main_ineq (size r t : Nat) (hs : 0 < size) (ht : t ≤ 53) (hr : r < 2 ^ t) :
    (round_nat ((round_nat size).1 * r)).1 *
        2 ^ ((round_nat size).2 + (round_nat ((round_nat size).1 * r)).2) < size * 2 ^ t := by
  have hTpos : 0 < 2 ^ t := Nat.two_pow_pos _
  have hTle : 2 ^ t ≤ 2 ^ 53 := Nat.pow_le_pow_right (by norm_num) ht
  have hms53 := round_nat_le size
  have hsize := round_nat_size_cases size hs
  generalize (round_nat size).1 = ms at hms53 hsize ⊢
  generalize (round_nat size).2 = es at hsize ⊢
  have hEpos : 0 < 2 ^ es := Nat.two_pow_pos _
  have hmp53 := round_nat_le (ms * r)
  have hprod : ((round_nat (ms * r)).2 = 0 ∧ (round_nat (ms * r)).1 = ms * r ∧
        ms * r < 2 ^ 53) ∨
      (2 ^ 52 * 2 ^ (round_nat (ms * r)).2 ≤ ms * r ∧
        2 * ((round_nat (ms * r)).1 * 2 ^ (round_nat (ms * r)).2)
          ≤ 2 * (ms * r) + 2 ^ (round_nat (ms * r)).2 ∧
        ((round_nat (ms * r)).1 = ms * r / 2 ^ (round_nat (ms * r)).2 ∨
          ((round_nat (ms * r)).1 = ms * r / 2 ^ (round_nat (ms * r)).2 + 1 ∧
            2 ^ (round_nat (ms * r)).2 ≤ 2 * (ms * r % 2 ^ (round_nat (ms * r)).2)))) := by
    by_cases h : ms * r < 2 ^ 53
    · left
      rw [round_nat_small _ h]
      exact ⟨rfl, rfl, h⟩
    · right
      obtain ⟨_, b, _, d⟩ := round_nat_big (ms * r) (by omega)
      exact ⟨b, round_nat_near _ (by omega), d⟩
  generalize (round_nat (ms * r)).1 = mp at hmp53 hprod ⊢
  generalize (round_nat (ms * r)).2 = sh at hprod ⊢
  rw [Nat.pow_add]
  rcases hsize with ⟨hk, hms1⟩ | ⟨m1, hm, hm1, hlt⟩
  · have hA : mp * 2 ^ sh < ms * 2 ^ t := by
      apply prod_lt_of_kept ms r (2 ^ t) mp (2 ^ sh) hr hms1 hTle
      rcases hprod with ⟨h0, hmp, _⟩ | ⟨hlo, hnear, _⟩
      · left
        rw [h0]
        exact ⟨rfl, hmp⟩
      · right
        exact ⟨hlo, hnear⟩
    calc mp * (2 ^ es * 2 ^ sh) = (mp * 2 ^ sh) * 2 ^ es := by ring
      _ < (ms * 2 ^ t) * 2 ^ es := Nat.mul_lt_mul_of_pos_right hA hEpos
      _ = (ms * 2 ^ es) * 2 ^ t := by ring
      _ ≤ size * 2 ^ t := Nat.mul_le_mul_right _ hk
  · subst hm
    have hB : mp * 2 ^ sh ≤ m1 * 2 ^ t := by
      apply prod_le_of_rounded_up m1 r t mp sh hr ht hm1 hms53
      rcases hprod with ⟨h0, hmp, hN⟩ | ⟨hlo, _, hq⟩
      · left
        exact ⟨h0, hmp, hN⟩
      · right
        exact ⟨hlo, hmp53, hq⟩
    calc mp * (2 ^ es * 2 ^ sh) = (mp * 2 ^ sh) * 2 ^ es := by ring
      _ ≤ (m1 * 2 ^ t) * 2 ^ es := Nat.mul_le_mul_right _ hB
      _ = (m1 * 2 ^ es) * 2 ^ t := by ring
      _ < size * 2 ^ t := Nat.mul_lt_mul_of_pos_right hlt hTpos

theorem floor_nonneg (mp : Nat) (e : Int) : 0 ≤ dbl.floor ⟨(mp : Int), e⟩ := by
  unfold dbl.floor
  split
  · positivity
  · exact Int.ediv_nonneg (Int.ofNat_nonneg _) (by positivity)

theorem floor_lt_of (mp a t size : Nat) (h : mp * 2 ^ a < size * 2 ^ t) :
    dbl.floor ⟨(mp : Int), (a : Int) - (t : Int)⟩ < (size : Int) := by
  unfold dbl.floor
  dsimp only
  split
  · rename_i hle
    have hta : t ≤ a := by omega
    have he : ((a : Int) - (t : Int)).toNat = a - t := by omega
    rw [he]
    have h2 : mp * 2 ^ (a - t) * 2 ^ t < size * 2 ^ t := by
      rw [Nat.mul_assoc, ← Nat.pow_add, Nat.sub_add_cancel hta]
      exact h
    have h3 : mp * 2 ^ (a - t) < size := Nat.lt_of_mul_lt_mul_right h2
    exact_mod_cast h3
  · rename_i hle
    have hta : a < t := by omega
    have he : (-((a : Int) - (t : Int))).toNat = t - a := by omega
    rw [he]
    have hpos : 0 < 2 ^ (t - a) := Nat.two_pow_pos _
    have h2 : mp * 2 ^ a < size * 2 ^ (t - a) * 2 ^ a := by
      rw [Nat.mul_assoc, ← Nat.pow_add, Nat.sub_add_cancel (Nat.le_of_lt hta)]
      exact h
    have h3 : mp < size * 2 ^ (t - a) := Nat.lt_of_mul_lt_mul_right h2
    have h4 : mp / 2 ^ (t - a) < size := (Nat.div_lt_iff_lt_mul hpos).mpr h3
    have h5 : ((mp : Int) / (2 : Int) ^ (t - a)) = ((mp / 2 ^ (t - a) : Nat) : Int) := by
      push_cast
      rfl
    rw [h5]
    exact_mod_cast h4

theorem round53_small (m e : Int) (h : m.natAbs < 2 ^ 53) : round53 m e = ⟨m, e⟩ := by
  unfold round53
  rw [round_nat_small _ h]
  dsimp only
  rw [Int.sign_mul_natAbs]
  simp

theorem round53_nat (n : Nat) (e : Int) :
    round53 (n : Int) e = ⟨((round_nat n).1 : Int), e + ((round_nat n).2 : Int)⟩ := by
  unfold round53
  rw [Int.natAbs_ofNat]
  by_cases h0 : n = 0
  · subst h0
    rw [round_nat_small 0 (by norm_num)]
    simp
  · have hpos : (0 : Int) < (n : Int) := by
      have : 0 < n := Nat.pos_of_ne_zero h0
      exact_mod_cast this
    rw [Int.sign_eq_one_of_pos hpos, one_mul]

/-- The product of the converted capacity with a fraction `r * 2^(-t)` below one has a
floor in `[0, size)`. -/
theorem scaled_floor (size r t : Nat) (hs : 0 < size) (ht : t ≤ 53) (hr : r < 2 ^ t) :
    0 ≤ dbl.floor (dbl.mul (dbl.ofInt (size : Int)) ⟨(r : Int), -(t : Int)⟩) ∧
      dbl.floor (dbl.mul (dbl.ofInt (size : Int)) ⟨(r : Int), -(t : Int)⟩) < (size : Int) := by
  have h1 : dbl.ofInt (size : Int)
      = ⟨((round_nat size).1 : Int), ((round_nat size).2 : Int)⟩ := by
    unfold dbl.ofInt
    rw [round53_nat]
    simp
  have h2 : dbl.mul ⟨((round_nat size).1 : Int), ((round_nat size).2 : Int)⟩
        ⟨(r : Int), -(t : Int)⟩
      = ⟨((round_nat ((round_nat size).1 * r)).1 : Int),
          (((round_nat size).2 + (round_nat ((round_nat size).1 * r)).2 : Nat) : Int)
            - (t : Int)⟩ := by
    unfold dbl.mul
    dsimp only
    rw [← Nat.cast_mul, round53_nat]
    congr 1
    push_cast
    ring
  rw [h1, h2]
  exact ⟨floor_nonneg _ _, floor_lt_of _ _ _ _ (main_ineq size r t hs ht hr)⟩

theorem sub_floor (mt : Int) (t : Nat) (ht1 : 1 ≤ t) (ht : t ≤ 53)
    (hmt : mt.natAbs ≤ 2 ^ 53) :
    dbl.sub ⟨mt, -(t : Int)⟩ (dbl.ofInt (dbl.floor ⟨mt, -(t : Int)⟩))
      = ⟨mt % 2 ^ t, -(t : Int)⟩ := by
  have hD2 : (2 : Int) ^ 1 ≤ 2 ^ t := pow_le_pow_right₀ (by norm_num) ht1
  have hD53 : (2 : Int) ^ t ≤ 2 ^ 53 := pow_le_pow_right₀ (by norm_num) ht
  have hDpos : (0 : Int) < 2 ^ t := by positivity
  have hfl : dbl.floor ⟨mt, -(t : Int)⟩ = mt / 2 ^ t := by
    unfold dbl.floor
    dsimp only
    have hneg : ¬ (0 : Int) ≤ -(t : Int) := by omega
    rw [if_neg hneg]
    have he : (-(-(t : Int))).toNat = t := by omega
    rw [he]
  have hup : mt / 2 ^ t < 2 ^ 53 := by
    apply Int.ediv_lt_of_lt_mul hDpos
    have : mt ≤ 2 ^ 53 := by omega
    nlinarith
  have hlo : -(2 : Int) ^ 53 + 1 ≤ mt / 2 ^ t := by
    apply Int.le_ediv_of_mul_le hDpos
    have : -(2 : Int) ^ 53 ≤ mt := by omega
    nlinarith
  have hof : dbl.ofInt (mt / 2 ^ t) = ⟨mt / 2 ^ t, 0⟩ :=
    round53_small _ _ (by omega)
  rw [hfl, hof]
  unfold dbl.sub
  dsimp only
  have hmin : min (-(t : Int)) 0 = -(t : Int) := by omega
  rw [hmin]
  have he1 : (-(t : Int) - -(t : Int)).toNat = 0 := by omega
  have he2 : ((0 : Int) - -(t : Int)).toNat = t := by omega
  rw [he1, he2, pow_zero, mul_one]
  have hmod : mt - mt / 2 ^ t * 2 ^ t = mt % 2 ^ t := by
    rw [Int.emod_def]
    ring
  rw [hmod]
  apply round53_small
  have hm0 : 0 ≤ mt % 2 ^ t := Int.emod_nonneg _ (ne_of_gt hDpos)
  have hm1 : mt % 2 ^ t < 2 ^ t := Int.emod_lt_of_pos _ hDpos
  omega

theorem frac_form (k : Int) (hk1 : -2 ^ 31 ≤ k) (hk2 : k < 2 ^ 31) :
    ∃ r t : Nat, t ≤ 53 ∧ r < 2 ^ t ∧
      dbl.sub (dbl.mul (dbl.ofInt k) hash_c)
          (dbl.ofInt (dbl.floor (dbl.mul (dbl.ofInt k) hash_c)))
        = ⟨(r : Int), -(t : Int)⟩ := by
  have h1 : dbl.ofInt k = ⟨k, 0⟩ := round53_small k 0 (by omega)
  have hMlt : (k * 5566755276118203).natAbs < 2 ^ 53 * 2 ^ 31 := by
    rw [Int.natAbs_mul]
    have : (5566755276118203 : Int).natAbs = 5566755276118203 := rfl
    rw [this]
    have hk : k.natAbs ≤ 2 ^ 31 := by omega
    have := Nat.mul_le_mul_right 5566755276118203 hk
    omega
  have hsh : (round_nat (k * 5566755276118203).natAbs).2 ≤ 31 := by
    by_cases h : (k * 5566755276118203).natAbs < 2 ^ 53
    · rw [round_nat_small _ h]
      exact Nat.zero_le _
    · obtain ⟨_, b, _, _⟩ := round_nat_big _ (Nat.le_of_not_lt h)
      have h3 : 2 ^ (round_nat (k * 5566755276118203).natAbs).2 < 2 ^ 32 := by omega
      have := (Nat.pow_lt_pow_iff_right (by norm_num)).mp h3
      omega
  have hq := round_nat_le (k * 5566755276118203).natAbs
  have htmp : dbl.mul (dbl.ofInt k) hash_c
      = ⟨(k * 5566755276118203).sign * ((round_nat (k * 5566755276118203).natAbs).1 : Int),
          -((53 - (round_nat (k * 5566755276118203).natAbs).2 : Nat) : Int)⟩ := by
    rw [h1]
    unfold dbl.mul hash_c round53
    dsimp only
    congr 1
    omega
  have habs : ((k * 5566755276118203).sign
      * ((round_nat (k * 5566755276118203).natAbs).1 : Int)).natAbs ≤ 2 ^ 53 := by
    rw [Int.natAbs_mul, Int.natAbs_ofNat]
    have hs1 : (k * 5566755276118203).sign.natAbs ≤ 1 := by
      rw [Int.natAbs_sign]
      split <;> omega
    calc (k * 5566755276118203).sign.natAbs * (round_nat (k * 5566755276118203).natAbs).1
        ≤ 1 * (round_nat (k * 5566755276118203).natAbs).1 := Nat.mul_le_mul_right _ hs1
      _ = (round_nat (k * 5566755276118203).natAbs).1 := Nat.one_mul _
      _ ≤ 2 ^ 53 := hq
  rw [htmp, sub_floor _ _ (by omega) (by omega) habs]
  refine ⟨(((k * 5566755276118203).sign
      * ((round_nat (k * 5566755276118203).natAbs).1 : Int))
      % 2 ^ (53 - (round_nat (k * 5566755276118203).natAbs).2)).toNat,
    53 - (round_nat (k * 5566755276118203).natAbs).2, by omega, ?_, ?_⟩
  · have hDpos : (0 : Int) < 2 ^ (53 - (round_nat (k * 5566755276118203).natAbs).2) := by
      positivity
    have hm0 := Int.emod_nonneg ((k * 5566755276118203).sign
      * ((round_nat (k * 5566755276118203).natAbs).1 : Int)) (ne_of_gt hDpos)
    have hm1 := Int.emod_lt_of_pos ((k * 5566755276118203).sign
      * ((round_nat (k * 5566755276118203).natAbs).1 : Int)) hDpos
    zify
    rw [Int.toNat_of_nonneg hm0]
    exact hm1
  · congr 1
    exact (Int.toNat_of_nonneg (Int.emod_nonneg _ (by positivity))).symm

theorem hash_base_double_range (k : Int) (size : Nat) (hk1 : -2 ^ 31 ≤ k) (hk2 : k < 2 ^ 31)
    (hs : 0 < size) :
    0 ≤ hash_base_double k size ∧ hash_base_double k size < (size : Int) := by
  obtain ⟨r, t, ht, hr, hd⟩ := frac_form k hk1 hk2
  unfold hash_base_double
  dsimp only
  rw [hd]
  exact scaled_floor size r t hs ht hr

theorem hash_base_lt (k : Int) (size : Nat) (hk1 : -2 ^ 31 ≤ k) (hk2 : k < 2 ^ 31)
    (hs : 0 < size) : hash_base k size < size := by
  have h := (hash_base_double_range k size hk1 hk2 hs).2
  unfold hash_base
  omega

theorem wrap32_range (x : Int) : -2 ^ 31 ≤ wrap32 x ∧ wrap32 x < 2 ^ 31 := by
  unfold wrap32
  omega

theorem word_sum_range (w : List Nat) :
    ∀ s : Int, -2 ^ 31 ≤ s → s < 2 ^ 31 →
      -2 ^ 31 ≤ word_sum s w ∧ word_sum s w < 2 ^ 31 := by
  induction w with
  | nil => intro s h1 h2; exact ⟨h1, h2⟩
  | cons b p ih =>
    intro s _ _
    exact ih _ (wrap32_range _).1 (wrap32_range _).2

/-- C10: for every `int` key `k` and every capacity `size > 0`, the double that
`hash_base` computes in binary64 arithmetic and casts to `size_t` lies in `[0, size)`,
so `hash_base k size < size`; `hash_int`, `hash_char` and `hash_word` return indices
below `size` as well. -/
theorem hash_range (k : Int) (size : Nat) (hk1 : -2 ^ 31 ≤ k) (hk2 : k < 2 ^ 31)
    (hs : 0 < size) :
    0 ≤ hash_base_double k size ∧ hash_base_double k size < (size : Int) ∧
      hash_base k size < size ∧ hash_int k size < size ∧ hash_char k size < size ∧
      ∀ w : DataWord, hash_word w size < size := by
  obtain ⟨h0, h1⟩ := hash_base_double_range k size hk1 hk2 hs
  refine ⟨h0, h1, hash_base_lt k size hk1 hk2 hs, hash_base_lt k size hk1 hk2 hs,
    hash_base_lt k size hk1 hk2 hs, ?_⟩
  intro w
  have h := word_sum_range w.word 0 (by norm_num) (by norm_num)
  exact hash_base_lt _ size h.1 h.2 hs

/-- Witness of C10: the key `-7` and the capacity 4 of the tables of `main`. -/
theorem hash_range_witness :
    0 ≤ hash_base_double (-7) 4 ∧ hash_base_double (-7) 4 < ((4 : Nat) : Int) ∧
      hash_base (-7) 4 < 4 ∧ hash_int (-7) 4 < 4 ∧ hash_char (-7) 4 < 4 ∧
      ∀ w : DataWord, hash_word w 4 < 4 :=
  hash_range (-7) 4 (by decide) (by decide) (by decide)

/-! ### Lookup, insertion position, failed growth -/

theorem add_loop_index {α : Type} (cmp : α → α → Int) (n : α) :
    ∀ l : List α, l ≠ [] →
      add_loop cmp n l = l.take (add_index cmp n l) ++ n :: l.drop (add_index cmp n l) := by
  intro l
  induction l with
  | nil => intro h; exact absurd rfl h
  | cons e next ih =>
    intro _
    unfold add_loop add_index
    split
    · rfl
    · rename_i hc
      have hne : next ≠ [] := by
        intro h
        apply hc
        right
        simp [h]
      rw [ih hne]
      rfl

theorem add_to_ht_list_index {α : Type} (cmp : α → α → Int) (l : List α) (n : α) :
    add_to_ht_list cmp l n = l.take (add_index cmp n l) ++ n :: l.drop (add_index cmp n l) := by
  cases l with
  | nil => rfl
  | cons e next => exact add_loop_index cmp n (e :: next) (by simp)

theorem get_loop_eq_find {α : Type} (cmp : α → α → Int) (data : α) :
    ∀ l : List α, get_loop cmp data l = l.find? (fun e => decide (cmp e data = 0)) := by
  intro l
  induction l with
  | nil => rfl
  | cons a rest ih =>
    unfold get_loop
    by_cases h : cmp a data = 0
    · simp [h]
    · simp [h, ih]

/-- C13: `get_element` returns the first slot, in chain order, of the bucket of the key
that compares equal to the key, and `NULL` exactly when no slot of that bucket compares
equal.  On the integer table of `main` after inserting 5, 13, 21 the lookup of 13 gives
the element 13 and the lookup of 7 gives `NULL`. -/
theorem lookup_first_match {α : Type} (t : hash_table α) (key : α) (chain : List α)
    (hb : t.ht[t.hash_function key t.size]? = some chain) :
    get_element t key = .ok (chain.find? (fun e => decide (t.compare_data e key = 0))) ∧
      (get_element t key = .ok none ↔ ∀ e, e ∈ chain → t.compare_data e key ≠ 0) ∧
      ∃ t1, insert_all int_table [5, 13, 21] = .ok t1 ∧
        get_element t1 13 = .ok (some 13) ∧ get_element t1 7 = .ok none := by
  have hget : get_element t key
      = .ok (chain.find? (fun e => decide (t.compare_data e key = 0))) := by
    simp [get_element, hb, get_loop_eq_find]
  refine ⟨hget, ?_, ⟨_, rfl, by decide, by decide⟩⟩
  rw [hget]
  constructor
  · intro h e he
    have h1 : chain.find? (fun e => decide (t.compare_data e key = 0)) = none := by
      injection h
    have h2 := List.find?_eq_none.mp h1 e he
    simpa using h2
  · intro h
    have h1 : chain.find? (fun e => decide (t.compare_data e key = 0)) = none := by
      apply List.find?_eq_none.mpr
      intro e he
      simpa using h e he
    rw [h1]

/-- Witness of C13: the integer table holding 5 and 13 in bucket 0, and the key 13. -/
theorem lookup_first_match_witness :
    get_element { int_table with ht := [[5, 13], [], [], [21]] } 13
        = .ok (([5, 13] : List Int).find? (fun e => decide (cmp_int e 13 = 0))) ∧
      (get_element { int_table with ht := [[5, 13], [], [], [21]] } 13 = .ok none ↔
        ∀ e, e ∈ ([5, 13] : List Int) → cmp_int e 13 ≠ 0) ∧
      ∃ t1, insert_all int_table [5, 13, 21] = .ok t1 ∧
        get_element t1 13 = .ok (some 13) ∧ get_element t1 7 = .ok none :=
  lookup_first_match { int_table with ht := [[5, 13], [], [], [21]] } 13 [5, 13] (by decide)

/-- When the cell is obtained with room for an `ht_element`, `insert_element` links
exactly one new slot holding `e` into the bucket `e` hashes to, whether or not an equal
element is there already: the chain of that bucket is the old chain with `e` put in at
one position, so it is one longer; every other bucket and the capacity are as before. -/
theorem insert_adds_one_slot {α : Type} (t : hash_table α) (e : α) (chain : List α)
    (hb : t.ht[t.hash_function e t.size]? = some chain) :
    ∃ t1 k, insert_element t e true = .ok t1 ∧
      t1.ht[t.hash_function e t.size]? = some (chain.take k ++ e :: chain.drop k) ∧
      (chain.take k ++ e :: chain.drop k).length = chain.length + 1 ∧
      (∀ i, i ≠ t.hash_function e t.size → t1.ht[i]? = t.ht[i]?) ∧
      t1.size = t.size := by
  have hlt : t.hash_function e t.size < t.ht.length := by
    by_contra hcon
    rw [List.getElem?_eq_none (Nat.le_of_not_lt hcon)] at hb
    cases hb
  refine ⟨{ t with ht := (t.ht.set (t.hash_function e t.size)
      (add_to_ht_list t.compare_data chain e)) }, add_index t.compare_data e chain,
    ?_, ?_, ?_, ?_, rfl⟩
  · simp [insert_element, hb]
  · show (t.ht.set _ _)[t.hash_function e t.size]? = _
    rw [add_to_ht_list_index]
    simp [List.getElem?_set, hlt]
  · rw [← add_to_ht_list_index, length_add_to_ht_list]
  · intro i hi
    exact List.getElem?_set_ne (Ne.symm hi)

/-- Example: a second 5 inserted into the integer table that holds 5 already. -/
theorem insert_adds_one_slot_example :
    ∃ t1 k, insert_element { int_table with ht := [[5], [], [], []] } 5 true = .ok t1 ∧
      t1.ht[hash_int 5 4]? = some (([5] : List Int).take k ++ 5 :: ([5] : List Int).drop k) ∧
      (([5] : List Int).take k ++ 5 :: ([5] : List Int).drop k).length
        = ([5] : List Int).length + 1 ∧
      (∀ i, i ≠ hash_int 5 4 → t1.ht[i]?
        = ([[5], [], [], []] : List (List Int))[i]?) ∧
      t1.size = 4 :=
  insert_adds_one_slot { int_table with ht := [[5], [], [], []] } 5 [5] (by decide)

/-- C15, at the failing input: for every table and every element, `insert_element` on
the block of `sizeof(ht_element *)` bytes that the code asks `malloc` for stores `data`
outside that block.  The linking step of `insert_element` is reached only when the
allocator hands back more than it was asked for, room for an `ht_element`; on `NULL`
the table is returned as it was. -/
theorem insert_block_too_small {α : Type} (t : hash_table α) (e : α) :
    insert_element_block t e malloc_exact = .error .out_of_bounds ∧
      insert_element_block t e (fun _ => some (OFFSET_DATA + SIZEOF_DATA_UNION))
        = insert_element t e true ∧
      insert_element_block t e (fun _ => none) = .ok t :=
  ⟨rfl, rfl, rfl⟩

/-- C16: when the allocation of the new array fails, `rehash` returns the table it was
given: capacity, bucket array, chains and live count are as before the call. -/
theorem failed_grow_is_atomic {α : Type} (t : hash_table α) :
    rehash t false = .ok t ∧ rehash_block t none = .ok t := by
  constructor
  · simp [rehash]
  · rfl

/-! ### Ties -/

theorem ordered_tail {α : Type} (cmp : α → α → Int) (a : α) (l : List α)
    (h : chain_ordered cmp (a :: l) = true) : chain_ordered cmp l = true := by
  cases l with
  | nil => rfl
  | cons b rest =>
    simp only [chain_ordered, Bool.and_eq_true] at h
    exact h.2

theorem ordered_head_le {α : Type} (cmp : α → α → Int)
    (htrans : ∀ a b c, cmp a b ≤ 0 → cmp b c ≤ 0 → cmp a c ≤ 0) :
    ∀ (l : List α) (a : α), chain_ordered cmp (a :: l) = true →
      ∀ y, y ∈ l → cmp a y ≤ 0 := by
  intro l
  induction l with
  | nil => intro a _ y hy; simp at hy
  | cons b rest ih =>
    intro a h y hy
    simp only [chain_ordered, Bool.and_eq_true, decide_eq_true_eq] at h
    rcases List.mem_cons.mp hy with hyb | hyr
    · rw [hyb]
      exact h.1
    · exact htrans a b y h.1 (ih b h.2 y hyr)

/-- C14, at the failing input: the word table of `main` after inserting `"ba"` and then
`"ab"` holds the chain `"ba", "ab"` in bucket 4, and a new `"ab"` is linked right behind
`"ba"`, in front of the `"ab"` that was there already.  The counters tell the two
records apart. -/
theorem tie_break_counterexample :
    (insert_all word_table [⟨bytes "ba", 1⟩, ⟨bytes "ab", 1⟩]).map (fun t => t.ht[4]?)
        = .ok (some [⟨bytes "ba", 1⟩, ⟨bytes "ab", 1⟩]) ∧
      add_to_ht_list cmp_word [⟨bytes "ba", 1⟩, ⟨bytes "ab", 1⟩] ⟨bytes "ab", 2⟩
        = [⟨bytes "ba", 1⟩, ⟨bytes "ab", 2⟩, ⟨bytes "ab", 1⟩] ∧
      ¬ placed_after_equals cmp_word [⟨bytes "ba", 1⟩, ⟨bytes "ab", 1⟩] ⟨bytes "ab", 2⟩ := by
  refine ⟨by decide, by decide, ?_⟩
  unfold placed_after_equals
  decide

/-- On a chain that is in non-decreasing comparator order, for a comparator whose `≤ 0`
is transitive, `add_to_ht_list` links the new cell at index `add_index`, and no old cell
behind it compares equal to the new element. -/
theorem ties_after_equals_on_ordered {α : Type} (cmp : α → α → Int) (chain : List α)
    (e : α) (htrans : ∀ a b c, cmp a b ≤ 0 → cmp b c ≤ 0 → cmp a c ≤ 0)
    (hord : chain_ordered cmp chain = true) :
    add_to_ht_list cmp chain e
        = chain.take (add_index cmp e chain) ++ e :: chain.drop (add_index cmp e chain) ∧
      placed_after_equals cmp chain e := by
  refine ⟨add_to_ht_list_index cmp chain e, ?_⟩
  unfold placed_after_equals
  induction chain with
  | nil => intro y hy; simp [add_index] at hy
  | cons a next ih =>
    intro y hy
    unfold add_index at hy
    split at hy
    · rename_i hc
      have hyn : y ∈ next := by simpa using hy
      have hpos : 0 < cmp a e := by
        rcases hc with hc | hc
        · exact hc
        · have : next = [] := by simpa using hc
          rw [this] at hyn
          simp at hyn
      have hay : cmp a y ≤ 0 := ordered_head_le cmp htrans next a hord y hyn
      intro hz
      have := htrans a y e hay (le_of_eq hz)
      omega
    · have hyn : y ∈ next.drop (add_index cmp e next) := by simpa using hy
      exact ih (ordered_tail cmp a next hord) y hyn

/-- Example: a second 5 linked into the ordered chain 3, 5, 9 of characters. -/
theorem ties_after_equals_on_ordered_example :
    add_to_ht_list cmp_char [3, 5, 9] 5
        = ([3, 5, 9] : List Int).take (add_index cmp_char 5 [3, 5, 9])
          ++ 5 :: ([3, 5, 9] : List Int).drop (add_index cmp_char 5 [3, 5, 9]) ∧
      placed_after_equals cmp_char [3, 5, 9] 5 :=
  ties_after_equals_on_ordered cmp_char [3, 5, 9] 5
    (fun a b c h1 h2 => by unfold cmp_char at *; omega) (by decide)

/-! ### Destroy on value types -/

/-- C19, at the failing input: on the integer table and on the character table of
`main`, built with `free_data = NULL`, removing an element that is present and
`free_table` on the non-empty table both call `free_data` through `NULL`. -/
theorem destroy_called_through_null :
    (∃ t, insert_all int_table [5] = .ok t ∧
        remove_element t 5 = .error .null_call ∧ free_table t = .error .null_call) ∧
      ∃ t, insert_all char_table [97] = .ok t ∧
        remove_element t 97 = .error .null_call ∧ free_table t = .error .null_call :=
  ⟨⟨_, rfl, rfl, rfl⟩, ⟨_, rfl, rfl, rfl⟩⟩

/-! ### The integer comparator -/

/-- C20 as stated fails: `2147483647 - (-1)` wraps to `-2147483648`, so `cmp_int` is
negative although `2147483647 > -1`. -/
theorem cmp_int_counterexample :
    cmp_int 2147483647 (-1) = -2147483648 ∧ ¬ three_way 2147483647 (-1) := by
  refine ⟨by decide, ?_⟩
  unfold three_way
  decide

/-- C20, amended: for all 32-bit `a`, `b`, `cmp_int a b` is zero exactly when `a = b`;
and when the difference `a - b` is itself a 32-bit value, `cmp_int a b` is negative
exactly when `a < b` and positive exactly when `a > b`. -/
theorem cmp_int_three_way (a b : Int) (ha : -2 ^ 31 ≤ a ∧ a < 2 ^ 31)
    (hb : -2 ^ 31 ≤ b ∧ b < 2 ^ 31) :
    (cmp_int a b = 0 ↔ a = b) ∧
      (-2 ^ 31 ≤ a - b ∧ a - b < 2 ^ 31 → three_way a b) := by
  unfold three_way cmp_int wrap32
  refine ⟨by omega, ?_⟩
  intro hd
  refine ⟨by omega, by omega, by omega⟩

/-- Witness of C20 amended: `a = 5`, `b = 13`. -/
theorem cmp_int_three_way_witness :
    (cmp_int 5 13 = 0 ↔ (5 : Int) = 13) ∧
      (-2 ^ 31 ≤ (5 : Int) - 13 ∧ (5 : Int) - 13 < 2 ^ 31 → three_way 5 13) :=
  cmp_int_three_way 5 13 (by decide) (by decide)

/-! ### `rehash` -/

theorem flatten_set_perm {α : Type} :
    ∀ (lists : List (List α)) (i : Nat) (l l1 : List α) (x : α),
      lists[i]? = some l → l1.Perm (x :: l) →
      (lists.set i l1).flatten.Perm (x :: lists.flatten) := by
  intro lists
  induction lists with
  | nil => intro i l l1 x h _; simp at h
  | cons c cs ih =>
    intro i l l1 x h hp
    cases i with
    | zero =>
      simp at h
      subst h
      simp only [List.set_cons_zero, List.flatten_cons]
      exact hp.append_right _
    | succ j =>
      simp at h
      simp only [List.set_cons_succ, List.flatten_cons]
      exact ((ih j l l1 x h hp).append_left c).trans List.perm_middle

theorem rehash_chain_ok {α : Type} (cmp : α → α → Int) (hash : α → Nat → Nat) (n : Nat) :
    ∀ (chain : List α) (lists : List (List α)),
      (∀ x, x ∈ chain → hash x n < lists.length) →
      ∃ lists1, rehash_chain cmp hash n chain lists = .ok lists1 ∧
        lists1.length = lists.length ∧
        lists1.flatten.Perm (chain ++ lists.flatten) ∧
        ((∀ i c, lists[i]? = some c → ∀ x, x ∈ c → hash x n = i) →
          ∀ i c, lists1[i]? = some c → ∀ x, x ∈ c → hash x n = i) := by
  intro chain
  induction chain with
  | nil =>
    intro lists _
    exact ⟨lists, rfl, rfl, List.Perm.refl _, fun h => h⟩
  | cons elem next ih =>
    intro lists hh
    have hlt : hash elem n < lists.length := hh elem (by simp)
    have hget : lists[hash elem n]? = some lists[hash elem n] := List.getElem?_eq_getElem hlt
    obtain ⟨lists1, h1, hl1, hp1, hpl1⟩ :=
      ih (lists.set (hash elem n) (add_to_ht_list cmp lists[hash elem n] elem))
        (fun x hx => by
          rw [List.length_set]
          exact hh x (List.mem_cons_of_mem _ hx))
    refine ⟨lists1, ?_, ?_, ?_, ?_⟩
    · simp only [rehash_chain, hget]
      exact h1
    · rw [hl1, List.length_set]
    · have hs := flatten_set_perm lists (hash elem n) lists[hash elem n]
        (add_to_ht_list cmp lists[hash elem n] elem) elem hget
        (add_to_ht_list_perm cmp _ elem)
      exact (hp1.trans (hs.append_left next)).trans List.perm_middle
    · intro hpl
      apply hpl1
      intro i c hc x hx
      by_cases hi : hash elem n = i
      · subst hi
        rw [List.getElem?_set_self hlt] at hc
        cases hc
        rcases (mem_add_to_ht_list cmp _ elem x).mp hx with hxe | hxl
        · rw [hxe]
        · exact hpl _ _ hget x hxl
      · rw [List.getElem?_set_ne hi] at hc
        exact hpl i c hc x hx

theorem rehash_from_ok {α : Type} (cmp : α → α → Int) (hash : α → Nat → Nat) (n : Nat)
    (ht : List (List α)) :
    ∀ (k i : Nat) (lists : List (List α)), i + k ≤ ht.length →
      (∀ c, c ∈ ht → ∀ x, x ∈ c → hash x n < lists.length) →
      ∃ lists1, rehash_from cmp hash n ht k i lists = .ok lists1 ∧
        lists1.length = lists.length ∧
        lists1.flatten.Perm (((ht.drop i).take k).flatten ++ lists.flatten) ∧
        ((∀ j c, lists[j]? = some c → ∀ x, x ∈ c → hash x n = j) →
          ∀ j c, lists1[j]? = some c → ∀ x, x ∈ c → hash x n = j) := by
  intro k
  induction k with
  | zero =>
    intro i lists _ _
    exact ⟨lists, rfl, rfl, by simp, fun h => h⟩
  | succ k ih =>
    intro i lists hik hh
    have hlt : i < ht.length := by omega
    have hget : ht[i]? = some ht[i] := List.getElem?_eq_getElem hlt
    have hmem : ht[i] ∈ ht := List.getElem_mem hlt
    obtain ⟨lists1, h1, hl1, hp1, hpl1⟩ :=
      rehash_chain_ok cmp hash n ht[i] lists (hh ht[i] hmem)
    obtain ⟨lists2, h2, hl2, hp2, hpl2⟩ :=
      ih (i + 1) lists1 (by omega) (fun c hc x hx => by rw [hl1]; exact hh c hc x hx)
    refine ⟨lists2, ?_, by rw [hl2, hl1], ?_, fun hpl => hpl2 (hpl1 hpl)⟩
    · simp only [rehash_from, hget, h1]
      exact h2
    · have hd : ht.drop i = ht[i] :: ht.drop (i + 1) := List.drop_eq_getElem_cons hlt
      rw [hd, List.take_succ_cons, List.flatten_cons]
      have h3 := hp2.trans (hp1.append_left _)
      refine h3.trans ?_
      rw [← List.append_assoc]
      exact List.Perm.append_right _ List.perm_append_comm

theorem rehash_eq_rehash_block {α : Type} (t : hash_table α) :
    rehash t true = rehash_block t (some (List.replicate (t.size * 2) [])) ∧
      rehash t false = rehash_block t none := by
  constructor
  · rfl
  · simp [rehash, rehash_block]

/-- When the new array reads as all `NULL`, `rehash` doubles the capacity, keeps the
slots up to their order, and places every slot in the bucket it hashes to. -/
theorem rehash_zeroed {α : Type} (t : hash_table α) (hlen : t.ht.length = t.size)
    (hh : ∀ c, c ∈ t.ht → ∀ x, x ∈ c → t.hash_function x (t.size * 2) < t.size * 2) :
    ∃ t1, rehash t true = .ok t1 ∧ t1.size = t.size * 2 ∧ t1.ht.length = t1.size ∧
      (all_slots t1).Perm (all_slots t) ∧ placed t1 ∧
      t1.compare_data = t.compare_data ∧ t1.hash_function = t.hash_function := by
  obtain ⟨lists1, h1, hl1, hp1, hpl1⟩ :=
    rehash_from_ok t.compare_data t.hash_function (t.size * 2) t.ht t.size 0
      (List.replicate (t.size * 2) []) (by omega)
      (fun c hc x hx => by rw [List.length_replicate]; exact hh c hc x hx)
  refine ⟨{ t with size := t.size * 2, ht := lists1 }, ?_, rfl, ?_, ?_, ?_, rfl, rfl⟩
  · simp [rehash, h1]
  · show lists1.length = t.size * 2
    rw [hl1, List.length_replicate]
  · show lists1.flatten.Perm t.ht.flatten
    have hz : (List.replicate (t.size * 2) ([] : List α)).flatten = [] := by
      simp
    rw [hz, List.append_nil, List.drop_zero, ← hlen, List.take_length] at hp1
    exact hp1
  · intro i c hc x hx
    apply hpl1 _ i c hc x hx
    intro j c1 hc1 y hy
    rw [List.getElem?_replicate] at hc1
    split at hc1
    · cases hc1
      simp at hy
    · cases hc1

theorem get_loop_some {α : Type} (cmp : α → α → Int) (data : α) :
    ∀ (l : List α) (e : α), get_loop cmp data l = some e → e ∈ l ∧ cmp e data = 0 := by
  intro l
  induction l with
  | nil => intro e h; cases h
  | cons a rest ih =>
    intro e h
    unfold get_loop at h
    split at h
    · rename_i hz
      cases h
      exact ⟨by simp, hz⟩
    · obtain ⟨hm, hz⟩ := ih e h
      exact ⟨List.mem_cons_of_mem _ hm, hz⟩

/-- When the new array reads as all `NULL` and elements that compare equal hash alike,
every key that `get_element` finds before `rehash` is found after it. -/
theorem rehash_zeroed_keeps_found {α : Type} (t : hash_table α)
    (hlen : t.ht.length = t.size)
    (hh : ∀ c, c ∈ t.ht → ∀ x, x ∈ c → t.hash_function x (t.size * 2) < t.size * 2)
    (hcompat : ∀ a b n, t.compare_data a b = 0 → t.hash_function a n = t.hash_function b n)
    (key e : α) (hfound : get_element t key = .ok (some e)) :
    ∃ t1 e1, rehash t true = .ok t1 ∧ get_element t1 key = .ok (some e1) ∧
      t1.compare_data e1 key = 0 := by
  obtain ⟨t1, h1, hs1, _, hp1, hpl1, hc1, hf1⟩ := rehash_zeroed t hlen hh
  have hfound1 := hfound
  unfold get_element at hfound1
  dsimp only at hfound1
  split at hfound1
  · cases hfound1
  · rename_i chain hchain
    injection hfound1 with hg
    obtain ⟨hmem, hz⟩ := get_loop_some t.compare_data key chain e hg
    have hin : e ∈ all_slots t := by
      unfold all_slots
      exact List.mem_flatten.mpr ⟨chain, List.getElem?_mem hchain, hmem⟩
    have hin1 : e ∈ all_slots t1 := hp1.symm.subset hin
    unfold all_slots at hin1
    obtain ⟨chain1, hc, he⟩ := List.mem_flatten.mp hin1
    obtain ⟨j, hj⟩ := List.mem_iff_getElem?.mp hc
    have hje : t1.hash_function e t1.size = j := hpl1 j chain1 hj e he
    have hjk : t1.hash_function key t1.size = j := by
      rw [← hje, hf1]
      exact (hcompat e key _ hz).symm
    obtain ⟨e1, hg1, _, hz1⟩ := get_loop_of_mem t1.compare_data key chain1
      ⟨e, he, by rw [hc1]; exact hz⟩
    refine ⟨t1, e1, h1, ?_, hz1⟩
    simp [get_element, hjk, hj, hg1]

/-- C11, at the failing input: `rehash` on the integer table of `main` holding 5 and 13,
with `malloc` handing back a block whose cell 3 still holds the head of a chain with
the one element 21.  The capacity becomes 8, and the new array holds three slots, 21
among them, where the old one held two. -/
theorem rehash_reads_unwritten_cells :
    ∃ t1, rehash_block { int_table with ht := [[5, 13], [], [], []] }
        (some [[], [], [], [21], [], [], [], []]) = .ok t1 ∧
      t1.size = 8 ∧
      all_slots { int_table with ht := [[5, 13], [], [], []] } = [5, 13] ∧
      all_slots t1 = [5, 13, 21] ∧
      ¬ (all_slots t1).Perm (all_slots { int_table with ht := [[5, 13], [], [], []] }) := by
  refine ⟨_, rfl, rfl, by decide, by decide, ?_⟩
  intro h
  have := h.length_eq
  revert this
  decide

/-! ### Bucket placement -/

theorem remove_loop_subset {α : Type} (cmp : α → α → Int) (data : α) :
    ∀ (l l1 : List α) (x : α), remove_loop cmp data l = some (x, l1) →
      ∀ y, y ∈ l1 → y ∈ l := by
  intro l
  induction l with
  | nil => intro l1 x h; cases h
  | cons a rest ih =>
    intro l1 x h y hy
    unfold remove_loop at h
    by_cases hz : cmp a data = 0
    · rw [if_pos hz] at h
      cases h
      exact List.mem_cons_of_mem _ hy
    · rw [if_neg hz] at h
      cases hr : remove_loop cmp data rest with
      | none => simp [hr] at h
      | some r =>
        obtain ⟨x1, next1⟩ := r
        simp only [hr] at h
        cases h
        rcases List.mem_cons.mp hy with hya | hyr
        · rw [hya]
          simp
        · exact List.mem_cons_of_mem _ (ih _ _ hr y hyr)

theorem placed_set {α : Type} (t : hash_table α) (h : Nat) (chain chain1 : List α)
    (hp : placed t) (hb : t.ht[h]? = some chain)
    (hsub : ∀ y, y ∈ chain1 → y ∈ chain ∨ t.hash_function y t.size = h) :
    placed { t with ht := t.ht.set h chain1 } := by
  have hlt : h < t.ht.length := by
    by_contra hcon
    rw [List.getElem?_eq_none (Nat.le_of_not_lt hcon)] at hb
    cases hb
  intro i c hc x hx
  show t.hash_function x t.size = i
  have hc1 : (t.ht.set h chain1)[i]? = some c := hc
  by_cases hi : h = i
  · subst hi
    rw [List.getElem?_set_self hlt] at hc1
    cases hc1
    rcases hsub x hx with hx1 | hx1
    · exact hp h chain hb x hx1
    · exact hx1
  · rw [List.getElem?_set_ne hi] at hc1
    exact hp i c hc1 x hx

theorem insert_element_placed {α : Type} (t t1 : hash_table α) (x : α) (b : Bool)
    (hp : placed t) (h : insert_element t x b = .ok t1) :
    placed t1 ∧ t1.ht.length = t.ht.length ∧ t1.hash_function = t.hash_function := by
  unfold insert_element at h
  cases b with
  | false =>
    simp at h
    subst h
    exact ⟨hp, rfl, rfl⟩
  | true =>
    simp only [if_true] at h
    split at h
    · cases h
    · rename_i list hl
      cases h
      refine ⟨?_, by simp, rfl⟩
      apply placed_set t _ list _ hp hl
      intro y hy
      rcases (mem_add_to_ht_list _ _ _ _).mp hy with hy1 | hy1
      · right
        rw [hy1]
      · left
        exact hy1

theorem remove_element_placed {α : Type} (t t1 : hash_table α) (x : α) (freed : List α)
    (hp : placed t) (h : remove_element t x = .ok (t1, freed)) :
    placed t1 ∧ t1.ht.length = t.ht.length ∧ t1.hash_function = t.hash_function := by
  unfold remove_element at h
  dsimp only at h
  split at h
  · cases h
  · cases h
  · rename_i prev_elem elem hb
    split at h
    · split at h
      · cases h
      · cases h
        refine ⟨?_, by simp, rfl⟩
        apply placed_set t _ (prev_elem :: elem) _ hp hb
        intro y hy
        left
        exact List.mem_cons_of_mem _ hy
    · split at h
      · cases h
        exact ⟨hp, rfl, rfl⟩
      · rename_i x1 next1 hr
        split at h
        · cases h
        · cases h
          refine ⟨?_, by simp, rfl⟩
          apply placed_set t _ (prev_elem :: elem) _ hp hb
          intro y hy
          left
          rcases List.mem_cons.mp hy with hya | hyr
          · rw [hya]
            simp
          · exact List.mem_cons_of_mem _
              (remove_loop_subset t.compare_data x elem next1 x1 hr y hyr)

/-- With every new array reading as all `NULL` and a hash that stays below the
capacity, bucket placement holds in every table reached from a fresh one. -/
theorem placed_after_calls {α : Type} (hash : α → Nat → Nat)
    (hh : ∀ x n, 0 < n → hash x n < n) (cs : List (call α)) :
    ∀ t t1 : hash_table α, t.hash_function = hash → t.ht.length = t.size → 0 < t.size →
      placed t → run_calls t cs = .ok t1 →
      placed t1 ∧ t1.ht.length = t1.size := by
  induction cs with
  | nil =>
    intro t t1 _ hlen _ hp h
    cases h
    exact ⟨hp, hlen⟩
  | cons c cs ih =>
    intro t t1 hf hlen hpos hp h
    cases hrc : run_call t c with
    | error f => simp [run_calls, hrc] at h
    | ok t2 =>
      simp only [run_calls, hrc] at h
      cases c with
      | insert data b =>
        obtain ⟨hp2, hl2, hf2⟩ := insert_element_placed t t2 data b hp hrc
        obtain ⟨hs2, _⟩ := insert_element_fields t t2 data b hrc
        exact ih t2 t1 (hf2.trans hf) (by omega) (by omega) hp2 h
      | remove data =>
        simp only [run_call] at hrc
        cases hre : remove_element t data with
        | error f => simp [hre] at hrc
        | ok r =>
          obtain ⟨t3, freed⟩ := r
          simp only [hre] at hrc
          cases hrc
          obtain ⟨hp2, hl2, hf2⟩ := remove_element_placed t t2 data freed hp hre
          obtain ⟨hs2, _⟩ := remove_element_fields t t2 data freed hre
          exact ih t2 t1 (hf2.trans hf) (by omega) (by omega) hp2 h
      | grow b =>
        cases b with
        | false =>
          have h2 : t2 = t := by
            simp [run_call, rehash] at hrc
            exact hrc.symm
          subst h2
          exact ih t2 t1 hf hlen hpos hp h
        | true =>
          obtain ⟨t3, h3, hs3, hl3, _, hp3, _, hf3⟩ := rehash_zeroed t hlen
            (fun c _ x _ => by rw [hf]; exact hh x _ (by omega))
          have h2 : t2 = t3 := by
            have : rehash t true = .ok t2 := hrc
            rw [h3] at this
            cases this
            rfl
          subst h2
          exact ih t2 t1 (hf3.trans hf) hl3 (by omega) hp3 h

/-- C12, at the failing input: 5 and 13 are inserted into the fresh integer table of
`main` and `rehash` is called, `malloc` handing back a block whose cell 3 still holds
the head of a chain with the one element 21.  Bucket 3 of the table then holds 21, which
hashes to 7 under the new capacity 8. -/
theorem placement_broken_by_unwritten_cells :
    ∃ t t1, insert_all int_table [5, 13] = .ok t ∧
      rehash_block t (some [[], [], [], [21], [], [], [], []]) = .ok t1 ∧
      t1.ht[3]? = some [21] ∧ hash_int 21 t1.size = 7 ∧ ¬ placed t1 := by
  refine ⟨_, _, rfl, rfl, by decide, by decide, ?_⟩
  intro hp
  have h := hp 3 [21] (by decide) 21 (by simp)
  revert h
  decide

/-! ### Tokens -/

theorem wspace_byte (b : Nat) :
    decide ((b : Int) = 32 ∨ (b : Int) = 9 ∨ (b : Int) = 13 ∨ (b : Int) = 10 ∨ (b : Int) = EOF)
      = is_space b := by
  unfold is_space EOF
  rw [Bool.eq_iff_iff]
  simp only [decide_eq_true_eq, Bool.or_eq_true]
  omega

theorem body_char (s : stream_state) (b : Nat) (rest : List Nat)
    (hi : s.input = b :: rest) (hsp : is_space b = false) :
    stream_body s =
        (if BUFFER_SIZE ≤ s.bufptr then .error .out_of_bounds
         else .ok (false,
          { input := rest, is_break := false,
            buf := s.buf.set s.bufptr ((b : Int) % 256).toNat,
            bufptr := s.bufptr + 1, table := s.table })) ∧
      flushed_word s = [] := by
  have hne : ((b : Int) == EOF) = false := by
    unfold EOF
    simp
  unfold stream_body flushed_word
  simp only [hi, getchar, wspace_byte, hsp, hne]
  simp

theorem body_eof_flush (s : stream_state) (hi : s.input = []) (hb : s.is_break = false) :
    stream_body s =
        (if BUFFER_SIZE ≤ s.bufptr then .error .out_of_bounds
         else
          match insert_element s.table
            (create_data_word ((s.buf.set s.bufptr 0).takeWhile (fun b => b != 0))) true with
          | .error f => .error f
          | .ok table1 =>
            .ok (true,
              { input := [], is_break := true, buf := s.buf.set s.bufptr 0,
                bufptr := 0, table := table1 })) ∧
      flushed_word s = [(s.buf.set s.bufptr 0).takeWhile (fun b => b != 0)] := by
  unfold stream_body flushed_word
  simp [hi, getchar, hb, EOF]

theorem pending_nil_nil : pending_tokens [] [] = [] := by
  unfold pending_tokens
  rw [List.splitOnP_nil]
  simp [List.modifyHead]

theorem fill_run (n : Nat) :
    ∀ (s : stream_state) (fuel : Nat) (rest : List Nat),
      s.input = List.replicate n 97 ++ rest → s.bufptr + n ≤ BUFFER_SIZE →
      ∃ s1, stream_loop (fuel + n) s = stream_loop fuel s1 ∧ s1.input = rest ∧
        s1.bufptr = s.bufptr + n ∧ (n = 0 → s1.is_break = s.is_break) ∧
        (0 < n → s1.is_break = false) := by
  induction n with
  | zero =>
    intro s fuel rest hin _
    exact ⟨s, rfl, by simpa using hin, rfl, fun _ => rfl,
      fun h => absurd h (Nat.lt_irrefl 0)⟩
  | succ n ih =>
    intro s fuel rest hin hle
    have hin1 : s.input = 97 :: (List.replicate n 97 ++ rest) := by
      rw [hin, List.replicate_succ, List.cons_append]
    obtain ⟨hbody, _⟩ := body_char s 97 _ hin1 (by decide)
    have hoob : ¬ BUFFER_SIZE ≤ s.bufptr := by omega
    rw [if_neg hoob] at hbody
    obtain ⟨s1, h1, h2, h3, h4, h5⟩ := ih
      { input := List.replicate n 97 ++ rest, is_break := false,
        buf := s.buf.set s.bufptr ((97 : Int) % 256).toNat,
        bufptr := s.bufptr + 1, table := s.table } fuel rest rfl
      (by show s.bufptr + 1 + n ≤ BUFFER_SIZE; omega)
    refine ⟨s1, ?_, h2, ?_, fun hc => by omega, ?_⟩
    · show stream_loop (fuel + n + 1) s = _
      rw [stream_loop, hbody]
      exact h1
    · rw [h3]
      show s.bufptr + 1 + n = s.bufptr + (n + 1)
      omega
    · intro _
      by_cases hn : 0 < n
      · exact h5 hn
      · exact h4 (by omega)

/-- C18, at the failing inputs: on an input of 1024 non-whitespace bytes the pass that
reads `EOF` writes the terminating `NUL` at index 1024 of the buffer of `BUFFER_SIZE =
1024` bytes, and on an input of 1025 such bytes the pass that reads the last byte
stores it at index 1024: both writes are outside the buffer. -/
theorem long_run_writes_past_buffer (p_table : hash_table DataWord) :
    stream_to_ht 1025 p_table (List.replicate 1024 97) = some (.error .out_of_bounds) ∧
      stream_to_ht 1025 p_table (List.replicate 1025 97) = some (.error .out_of_bounds) := by
  constructor
  · obtain ⟨s1, h1, h2, h3, _, h5⟩ :=
      fill_run 1024 (stream_start p_table (List.replicate 1024 97)) 1 []
        (List.append_nil _).symm (by show 0 + 1024 ≤ BUFFER_SIZE; decide)
    have hb := (body_eof_flush s1 h2 (h5 (by decide))).1
    have hoob : BUFFER_SIZE ≤ s1.bufptr := by
      rw [h3]
      show BUFFER_SIZE ≤ 0 + 1024
      decide
    rw [if_pos hoob] at hb
    show stream_loop (1 + 1024) (stream_start p_table (List.replicate 1024 97)) = _
    rw [h1, stream_loop, hb]
  · obtain ⟨s1, h1, h2, h3, _, _⟩ :=
      fill_run 1024 (stream_start p_table (List.replicate 1025 97)) 1 [97]
        (List.replicate_succ' ..) (by show 0 + 1024 ≤ BUFFER_SIZE; decide)
    have hb := (body_char s1 97 [] h2 (by decide)).1
    have hoob : BUFFER_SIZE ≤ s1.bufptr := by
      rw [h3]
      show BUFFER_SIZE ≤ 0 + 1024
      decide
    rw [if_pos hoob] at hb
    show stream_loop (1 + 1024) (stream_start p_table (List.replicate 1025 97)) = _
    rw [h1, stream_loop, hb]

end HT
